import Mathlib

/-
Verification of the portfolio-optimization library (Markowitz Monte Carlo
frontier + Hierarchical Risk Parity).  The Python source is shallowly
embedded over exact rationals: pandas frames become row-major
`List (List ℚ)` tables, numpy vectors become `List ℚ`, covariance matrices
become functions `ℕ → ℕ → ℚ`, and the two floating-point-only ingredients
(`np.sqrt`, which is strictly monotone and therefore irrelevant to every
order/zero comparison proved here, and the externally supplied
`scipy.cluster.hierarchy.linkage`) are handled explicitly where they occur.
Loops are embedded with an explicit fuel argument large enough for the
loop's own termination measure; sufficiency is proved where a claim needs it.
-/

namespace Portfolio

/-- Column `j` of a row-major table; positions missing from a row read as 0
(the tables of interest are rectangular). -/
def colAt (rows : List (List ℚ)) (j : ℕ) : List ℚ :=
  rows.map (fun r => r.getD j 0)

/-- Mean of a list of rationals.  For the empty list the total-division
convention gives 0 (pandas would propagate NaN; no claim depends on the
value of an empty-column statistic). -/
def listMean (xs : List ℚ) : ℚ :=
  xs.sum / xs.length

/-- Sample covariance of two equally long columns with denominator `n - 1`
(the pandas `DataFrame.cov` default `ddof=1`). -/
def sampleCov (xs ys : List ℚ) : ℚ :=
  ((xs.zip ys).map (fun p => (p.1 - listMean xs) * (p.2 - listMean ys))).sum /
    ((xs.length : ℚ) - 1)

/-- Tail of the row-over-row fractional changes: for a previous row `prev`
and remaining rows, produce `(cur - prev) / prev` entrywise for each
consecutive pair.  This is `DataFrame.pct_change` with its undefined first
row already removed. -/
def pctRows (prev : List ℚ) : List (List ℚ) → List (List ℚ)
  | [] => []
  | r :: rs => (List.zipWith (fun p q => (q - p) / p) prev r) :: pctRows r rs

/-- Embedding of `data.pct_change().dropna()`: percentage change between
consecutive rows, with the first (undefined) row dropped. -/
def pct_change_dropna : List (List ℚ) → List (List ℚ)
  | [] => []
  | r :: rs => pctRows r rs

/-- The error taxonomy named by the specification for the return estimator.
The embedding of `calculate_metrics` below shows that the code never
produces either value. -/
inductive DataError where
  | insufficientRows : DataError
  | zeroVariance : DataError

/-- Annualization factor used by `calculate_metrics` (252 trading periods). -/
def annualization : ℚ := 252

/-- Column-wise annualized means of a return table with `ncols` columns. -/
def meanVector (returns : List (List ℚ)) (ncols : ℕ) : List ℚ :=
  (List.range ncols).map (fun j => annualization * listMean (colAt returns j))

/-- Annualized sample covariance matrix of a return table, as a row-major
list of rows. -/
def covMatrixList (returns : List (List ℚ)) (ncols : ℕ) : List (List ℚ) :=
  (List.range ncols).map (fun i =>
    (List.range ncols).map (fun j =>
      annualization * sampleCov (colAt returns i) (colAt returns j)))

/-- Embedding of `calculate_metrics(data)`: percentage-change returns, the
annualized mean vector and the annualized covariance matrix.  The Python
body contains no validation and no raise statement, so the `Except`
codomain (introduced to make the specification's `DataError` claim
statable) is constantly `Except.ok`. -/
def calculate_metrics (data : List (List ℚ)) :
    Except DataError (List (List ℚ) × List ℚ × List (List ℚ)) :=
  let returns := pct_change_dropna data
  let ncols := (data.headD []).length
  Except.ok (returns, meanVector returns ncols, covMatrixList returns ncols)

/-- Largest entry of a list of rationals (`np.max`; 0 for the empty list,
which numpy would reject). -/
def qmax : List ℚ → ℚ
  | [] => 0
  | x :: xs => xs.foldl max x

/-- Smallest entry of a list of rationals (`np.min`; 0 for the empty list). -/
def qmin : List ℚ → ℚ
  | [] => 0
  | x :: xs => xs.foldl min x

/-- Index of the first occurrence of the maximum, the semantics of
`np.argmax` on a nonempty array. -/
def argmaxL : List ℚ → ℕ
  | [] => 0
  | [_] => 0
  | x :: y :: rest => if qmax (y :: rest) ≤ x then 0 else argmaxL (y :: rest) + 1

/-- Index of the first occurrence of the minimum, the semantics of
`np.argmin` on a nonempty array. -/
def argminL : List ℚ → ℕ
  | [] => 0
  | [_] => 0
  | x :: y :: rest => if x ≤ qmin (y :: rest) then 0 else argminL (y :: rest) + 1

/-- One Monte Carlo record: column `i` of the `3 × K` results array.
`vol` embeds `results[0,i]`: the code stores
`np.sqrt(w^T Σ w)`; the square root does not exist in `ℚ` and is strictly
monotone on the nonnegative reals, so the squared value `w^T Σ w` is stored
instead — every comparison (`np.argmin`) and zero test on volatilities is
unchanged by this.  `sharpe` embeds `results[2,i] = (ret - rf)/vol` with
total division; no claim depends on the numeric value of a Sharpe ratio
produced by the simulator, only on the selectors' behaviour relative to
whatever values are recorded. -/
structure SimPoint where
  vol : ℚ
  ret : ℚ
  sharpe : ℚ
deriving DecidableEq

/-- Quadratic form `np.dot(w.T, np.dot(cov, w))`. -/
def quadForm (w : List ℚ) (cov : ℕ → ℕ → ℚ) : ℚ :=
  ((List.range w.length).map (fun i =>
    ((List.range w.length).map (fun j =>
      w.getD i 0 * cov i j * w.getD j 0)).sum)).sum

/-- Embedding of `portfolio_performance(weights, mean_returns, cov_matrix)`:
the expected return `np.sum(mean_returns * weights)` and the volatility,
embedded squared (see `SimPoint`). -/
def portfolio_performance (weights mean_returns : List ℚ) (cov : ℕ → ℕ → ℚ) :
    ℚ × ℚ :=
  ((List.zipWith (fun m w => m * w) mean_returns weights).sum,
   quadForm weights cov)

/-- Normalization of one random draw: `weights /= np.sum(weights)`. -/
def normalizeWeights (u : List ℚ) : List ℚ :=
  u.map (fun x => x / u.sum)

/-- Embedding of `simulate_efficient_frontier`.  The ambient
`np.random.random` source is dependency-injected as the list `draws` of raw
uniform samples, one inner list per trial; everything after the draw follows
the loop body: normalize, evaluate `portfolio_performance`, record
`(vol, ret, (ret - rf)/vol)` and the weight vector. -/
def simulate_efficient_frontier (mean_returns : List ℚ) (cov : ℕ → ℕ → ℚ)
    (risk_free_rate : ℚ) (draws : List (List ℚ)) :
    List SimPoint × List (List ℚ) :=
  (draws.map (fun u =>
      let w := normalizeWeights u
      let pr := portfolio_performance w mean_returns cov
      SimPoint.mk pr.2 pr.1 ((pr.1 - risk_free_rate) / pr.2)),
   draws.map normalizeWeights)

/-- Embedding of `get_max_sharpe_ratio(results, weights_record)`.
`np.argmax` raises on an empty array, embedded as `Option.none`; otherwise
the triple `(results[0,i], results[1,i], weights_record[i])` at the argmax
index of the Sharpe row. -/
def get_max_sharpe_ratio (results : List SimPoint)
    (weights_record : List (List ℚ)) : Option (ℚ × ℚ × List ℚ) :=
  match results with
  | [] => none
  | _ :: _ =>
      let i := argmaxL (results.map SimPoint.sharpe)
      some ((results.getD i ⟨0, 0, 0⟩).vol, (results.getD i ⟨0, 0, 0⟩).ret,
        weights_record.getD i [])

/-- Embedding of `get_min_volatility(results, weights_record)`:
`np.argmin` over the volatility row, failing on empty input. -/
def get_min_volatility (results : List SimPoint)
    (weights_record : List (List ℚ)) : Option (ℚ × ℚ × List ℚ) :=
  match results with
  | [] => none
  | _ :: _ =>
      let i := argminL (results.map SimPoint.vol)
      some ((results.getD i ⟨0, 0, 0⟩).vol, (results.getD i ⟨0, 0, 0⟩).ret,
        weights_record.getD i [])

/-! Basic facts about the fold-based maximum/minimum and the first-occurrence
argmax/argmin used by the frontier selectors. -/

theorem le_foldl_max (a : ℚ) (xs : List ℚ) : a ≤ xs.foldl max a := by
  induction xs generalizing a with
  | nil => exact le_refl a
  | cons y t ih => exact le_trans (le_max_left a y) (ih (max a y))

theorem mem_le_foldl_max {z : ℚ} {xs : List ℚ} (a : ℚ) (hz : z ∈ xs) :
    z ≤ xs.foldl max a := by
  induction xs generalizing a with
  | nil => cases hz
  | cons y t ih =>
      rcases List.mem_cons.mp hz with h | h
      · subst h
        exact le_trans (le_max_right a z) (le_foldl_max (max a z) t)
      · exact ih (max a y) h

theorem foldl_max_assoc (t : List ℚ) : ∀ (a b : ℚ),
    List.foldl max (max a b) t = max a (List.foldl max b t) := by
  induction t with
  | nil => intro a b; rfl
  | cons c t ih =>
      intro a b
      show List.foldl max (max (max a b) c) t = max a (List.foldl max (max b c) t)
      rw [max_assoc, ih a (max b c)]

theorem qmax_cons (x y : ℚ) (t : List ℚ) :
    qmax (x :: y :: t) = max x (qmax (y :: t)) := by
  show List.foldl max (max x y) t = max x (List.foldl max y t)
  exact foldl_max_assoc t x y

theorem mem_le_qmax {z : ℚ} {xs : List ℚ} (hz : z ∈ xs) : z ≤ qmax xs := by
  cases xs with
  | nil => cases hz
  | cons x t =>
      rcases List.mem_cons.mp hz with h | h
      · subst h; exact le_foldl_max z t
      · exact mem_le_foldl_max x h

theorem argmaxL_spec : ∀ (xs : List ℚ), xs ≠ [] →
    argmaxL xs < xs.length ∧ xs.getD (argmaxL xs) 0 = qmax xs ∧
      ∀ j, j < argmaxL xs → xs.getD j 0 < qmax xs
  | [], h => absurd rfl h
  | [x], _ => by
      refine ⟨by simp [argmaxL], by simp [argmaxL, qmax], ?_⟩
      intro j hj
      simp [argmaxL] at hj
  | x :: y :: t, _ => by
      by_cases h : qmax (y :: t) ≤ x
      · refine ⟨by simp [argmaxL, h], ?_, ?_⟩
        · simp [argmaxL, h, qmax_cons, max_eq_left h]
        · intro j hj
          simp [argmaxL, h] at hj
      · have ih := argmaxL_spec (y :: t) (List.cons_ne_nil y t)
        have hx : x < qmax (y :: t) := lt_of_not_le h
        have hq : qmax (x :: y :: t) = qmax (y :: t) := by
          rw [qmax_cons, max_eq_right hx.le]
        refine ⟨?_, ?_, ?_⟩
        · simp only [argmaxL, if_neg h, List.length_cons]
          exact Nat.succ_lt_succ ih.1
        · simp only [argmaxL, if_neg h, List.getD_cons_succ, hq]
          exact ih.2.1
        · intro j hj
          simp only [argmaxL, if_neg h] at hj
          rw [hq]
          cases j with
          | zero => simpa using hx
          | succ j' =>
              rw [List.getD_cons_succ]
              exact ih.2.2 j' (Nat.lt_of_succ_lt_succ hj)

theorem foldl_min_le (a : ℚ) (xs : List ℚ) : xs.foldl min a ≤ a := by
  induction xs generalizing a with
  | nil => exact le_refl a
  | cons y t ih => exact le_trans (ih (min a y)) (min_le_left a y)

theorem foldl_min_le_mem {z : ℚ} {xs : List ℚ} (a : ℚ) (hz : z ∈ xs) :
    xs.foldl min a ≤ z := by
  induction xs generalizing a with
  | nil => cases hz
  | cons y t ih =>
      rcases List.mem_cons.mp hz with h | h
      · subst h
        exact le_trans (foldl_min_le (min a z) t) (min_le_right a z)
      · exact ih (min a y) h

theorem foldl_min_assoc (t : List ℚ) : ∀ (a b : ℚ),
    List.foldl min (min a b) t = min a (List.foldl min b t) := by
  induction t with
  | nil => intro a b; rfl
  | cons c t ih =>
      intro a b
      show List.foldl min (min (min a b) c) t = min a (List.foldl min (min b c) t)
      rw [min_assoc, ih a (min b c)]

theorem qmin_cons (x y : ℚ) (t : List ℚ) :
    qmin (x :: y :: t) = min x (qmin (y :: t)) := by
  show List.foldl min (min x y) t = min x (List.foldl min y t)
  exact foldl_min_assoc t x y

theorem qmin_le_mem {z : ℚ} {xs : List ℚ} (hz : z ∈ xs) : qmin xs ≤ z := by
  cases xs with
  | nil => cases hz
  | cons x t =>
      rcases List.mem_cons.mp hz with h | h
      · subst h; exact foldl_min_le z t
      · exact foldl_min_le_mem x h

theorem argminL_spec : ∀ (xs : List ℚ), xs ≠ [] →
    argminL xs < xs.length ∧ xs.getD (argminL xs) 0 = qmin xs ∧
      ∀ j, j < argminL xs → qmin xs < xs.getD j 0
  | [], h => absurd rfl h
  | [x], _ => by
      refine ⟨by simp [argminL], by simp [argminL, qmin], ?_⟩
      intro j hj
      simp [argminL] at hj
  | x :: y :: t, _ => by
      by_cases h : x ≤ qmin (y :: t)
      · refine ⟨by simp [argminL, h], ?_, ?_⟩
        · simp [argminL, h, qmin_cons, min_eq_left h]
        · intro j hj
          simp [argminL, h] at hj
      · have ih := argminL_spec (y :: t) (List.cons_ne_nil y t)
        have hx : qmin (y :: t) < x := lt_of_not_le h
        have hq : qmin (x :: y :: t) = qmin (y :: t) := by
          rw [qmin_cons, min_eq_right hx.le]
        refine ⟨?_, ?_, ?_⟩
        · simp only [argminL, if_neg h, List.length_cons]
          exact Nat.succ_lt_succ ih.1
        · simp only [argminL, if_neg h, List.getD_cons_succ, hq]
          exact ih.2.1
        · intro j hj
          simp only [argminL, if_neg h] at hj
          rw [hq]
          cases j with
          | zero => simpa using hx
          | succ j' =>
              rw [List.getD_cons_succ]
              exact ih.2.2 j' (Nat.lt_of_succ_lt_succ hj)

/-- Reading an in-range position of a mapped list, for arbitrary defaults on
either side. -/
theorem getD_map_lt {α β : Type} (f : α → β) : ∀ (l : List α) (j : ℕ),
    j < l.length → ∀ (d₁ : β) (d₂ : α), (l.map f).getD j d₁ = f (l.getD j d₂)
  | [], j, hj, _, _ => absurd hj (by simp)
  | x :: t, 0, _, _, _ => rfl
  | x :: t, j + 1, hj, d₁, d₂ => by
      simp only [List.map_cons, List.getD_cons_succ]
      exact getD_map_lt f t j (Nat.lt_of_succ_lt_succ hj) d₁ d₂

theorem getD_mem_of_lt {α : Type} : ∀ (l : List α) (j : ℕ), j < l.length →
    ∀ (d : α), l.getD j d ∈ l
  | [], j, hj, _ => absurd hj (by simp)
  | x :: t, 0, _, _ => List.mem_cons_self x t
  | x :: t, j + 1, hj, d => by
      rw [List.getD_cons_succ]
      exact List.mem_cons_of_mem x (getD_mem_of_lt t j (Nat.lt_of_succ_lt_succ hj) d)

/-- C7 counterexample: the single-row price table `[[1]]` has fewer than 2
rows, which the claim says must signal a `DataError`; `calculate_metrics`
instead returns the triple normally (with an empty return series, a mean
vector and covariance matrix read off the empty statistics under the
total-division convention where pandas would hold NaN). -/
theorem calculate_metrics_short_input_ok :
    ([([1] : List ℚ)].length < 2) ∧
      calculate_metrics [[1]] = Except.ok ([], [0], [[0]]) := by
  refine ⟨by decide, ?_⟩
  norm_num [calculate_metrics, pct_change_dropna, pctRows, meanVector,
    covMatrixList, colAt, listMean, sampleCov, annualization, List.range_succ]

/-- C7 (amended): `calculate_metrics` performs no input validation and never
signals a `DataError`: every input produces the `(returns, mean, cov)`
triple, and an input with fewer than 2 price rows produces an empty return
series rather than an error. -/
theorem calculate_metrics_never_fails (data : List (List ℚ)) :
    (∃ rs mv cm, calculate_metrics data = Except.ok (rs, mv, cm)) ∧
      (data.length < 2 →
        ∃ mv cm, calculate_metrics data = Except.ok ([], mv, cm)) := by
  constructor
  · exact ⟨_, _, _, rfl⟩
  · intro h
    match data, h with
    | [], _ => exact ⟨_, _, rfl⟩
    | [r], _ => exact ⟨_, _, rfl⟩

/-- C7 witness: the amended theorem applied at the concrete single-row
input. -/
theorem calculate_metrics_never_fails_witness :
    ∃ mv cm, calculate_metrics [[1]] = Except.ok ([], mv, cm) :=
  (calculate_metrics_never_fails [[1]]).2 (by decide)

/-- C8: both frontier selectors fail (embedded as `Option.none`; concretely
`np.argmax`/`np.argmin` raise on an empty array) when invoked on an empty
simulation result, whatever the weight list. -/
theorem selectors_empty_input (weights_record : List (List ℚ)) :
    get_max_sharpe_ratio [] weights_record = none ∧
      get_min_volatility [] weights_record = none :=
  ⟨rfl, rfl⟩

/-- C2: on a nonempty run, `get_max_sharpe_ratio` returns the
`(vol, ret, weights)` triple of a single record index `i` whose Sharpe ratio
is greatest, with any tie resolved to the first occurrence (all strictly
earlier records have strictly smaller Sharpe ratio); `get_min_volatility`
does the same for smallest volatility. -/
theorem selectors_optimal (results : List SimPoint)
    (weights_record : List (List ℚ)) (hne : results ≠ []) :
    (∃ i, i < results.length ∧
      get_max_sharpe_ratio results weights_record =
        some ((results.getD i ⟨0, 0, 0⟩).vol, (results.getD i ⟨0, 0, 0⟩).ret,
          weights_record.getD i []) ∧
      (∀ j, j < results.length →
        (results.getD j ⟨0, 0, 0⟩).sharpe ≤ (results.getD i ⟨0, 0, 0⟩).sharpe) ∧
      (∀ j, j < i →
        (results.getD j ⟨0, 0, 0⟩).sharpe < (results.getD i ⟨0, 0, 0⟩).sharpe)) ∧
    (∃ i, i < results.length ∧
      get_min_volatility results weights_record =
        some ((results.getD i ⟨0, 0, 0⟩).vol, (results.getD i ⟨0, 0, 0⟩).ret,
          weights_record.getD i []) ∧
      (∀ j, j < results.length →
        (results.getD i ⟨0, 0, 0⟩).vol ≤ (results.getD j ⟨0, 0, 0⟩).vol) ∧
      (∀ j, j < i →
        (results.getD i ⟨0, 0, 0⟩).vol < (results.getD j ⟨0, 0, 0⟩).vol)) := by
  match results, hne with
  | r :: rs, _ =>
      constructor
      · have hsh : (r :: rs).map SimPoint.sharpe ≠ [] := by simp
        obtain ⟨h1, h2, h3⟩ := argmaxL_spec ((r :: rs).map SimPoint.sharpe) hsh
        set i := argmaxL ((r :: rs).map SimPoint.sharpe) with hi
        have hlen : i < (r :: rs).length := by simpa using h1
        refine ⟨i, hlen, rfl, ?_, ?_⟩
        · intro j hj
          have hmem : ((r :: rs).map SimPoint.sharpe).getD j 0 ∈
              (r :: rs).map SimPoint.sharpe :=
            getD_mem_of_lt _ j (by simpa using hj) 0
          have := mem_le_qmax hmem
          rw [getD_map_lt SimPoint.sharpe _ j hj 0 ⟨0, 0, 0⟩] at this
          rw [← getD_map_lt SimPoint.sharpe _ i hlen 0 ⟨0, 0, 0⟩, h2]
          exact this
        · intro j hj
          have hjlen : j < (r :: rs).length := lt_trans hj hlen
          have := h3 j hj
          rw [getD_map_lt SimPoint.sharpe _ j hjlen 0 ⟨0, 0, 0⟩] at this
          rw [← getD_map_lt SimPoint.sharpe _ i hlen 0 ⟨0, 0, 0⟩, h2]
          exact this
      · have hv : (r :: rs).map SimPoint.vol ≠ [] := by simp
        obtain ⟨h1, h2, h3⟩ := argminL_spec ((r :: rs).map SimPoint.vol) hv
        set i := argminL ((r :: rs).map SimPoint.vol) with hi
        have hlen : i < (r :: rs).length := by simpa using h1
        refine ⟨i, hlen, rfl, ?_, ?_⟩
        · intro j hj
          have hmem : ((r :: rs).map SimPoint.vol).getD j 0 ∈
              (r :: rs).map SimPoint.vol :=
            getD_mem_of_lt _ j (by simpa using hj) 0
          have := qmin_le_mem hmem
          rw [getD_map_lt SimPoint.vol _ j hj 0 ⟨0, 0, 0⟩] at this
          rw [← getD_map_lt SimPoint.vol _ i hlen 0 ⟨0, 0, 0⟩, h2]
          exact this
        · intro j hj
          have hjlen : j < (r :: rs).length := lt_trans hj hlen
          have := h3 j hj
          rw [getD_map_lt SimPoint.vol _ j hjlen 0 ⟨0, 0, 0⟩] at this
          rw [← getD_map_lt SimPoint.vol _ i hlen 0 ⟨0, 0, 0⟩, h2]
          exact this

/-- Concrete two-record run used to witness the selector theorem. -/
def wRes : List SimPoint := [⟨4, 5, 3⟩, ⟨1, 2, 6⟩]

/-- Concrete weight list accompanying `wRes`. -/
def wWr : List (List ℚ) := [[1], [2]]

/-- C2 witness: the selector theorem applied to the concrete two-record run
`wRes`. -/
theorem selectors_optimal_witness :
    (∃ i, i < wRes.length ∧
      get_max_sharpe_ratio wRes wWr =
        some ((wRes.getD i ⟨0, 0, 0⟩).vol, (wRes.getD i ⟨0, 0, 0⟩).ret,
          wWr.getD i []) ∧
      (∀ j, j < wRes.length →
        (wRes.getD j ⟨0, 0, 0⟩).sharpe ≤ (wRes.getD i ⟨0, 0, 0⟩).sharpe) ∧
      (∀ j, j < i →
        (wRes.getD j ⟨0, 0, 0⟩).sharpe < (wRes.getD i ⟨0, 0, 0⟩).sharpe)) ∧
    (∃ i, i < wRes.length ∧
      get_min_volatility wRes wWr =
        some ((wRes.getD i ⟨0, 0, 0⟩).vol, (wRes.getD i ⟨0, 0, 0⟩).ret,
          wWr.getD i []) ∧
      (∀ j, j < wRes.length →
        (wRes.getD i ⟨0, 0, 0⟩).vol ≤ (wRes.getD j ⟨0, 0, 0⟩).vol) ∧
      (∀ j, j < i →
        (wRes.getD i ⟨0, 0, 0⟩).vol < (wRes.getD j ⟨0, 0, 0⟩).vol)) :=
  selectors_optimal wRes wWr (by simp [wRes])

/-- C9 counterexample: with the all-zero covariance matrix every trial has
volatility exactly 0, yet the simulator records the trial (here: Sharpe
embedded as the total division `(1 - 0)/0 = 0`; IEEE arithmetic holds Inf)
and propagates it into the result set instead of signalling a
`NumericError`. -/
theorem simulate_zero_vol_recorded :
    (simulate_efficient_frontier [1] (fun _ _ => 0) 0 [[1]]).1 =
      [⟨0, 1, 0⟩] := by
  norm_num [simulate_efficient_frontier, normalizeWeights,
    portfolio_performance, quadForm, List.range_succ]

/-- C9 (amended): the simulator contains no zero-volatility guard: it emits
exactly one record per draw, unconditionally, and a record whose volatility
is 0 carries the total-division Sharpe value (0 in this embedding, ±Inf/NaN
in the floating-point source) rather than being excluded or turned into an
error. -/
theorem simulate_no_guard (mean_returns : List ℚ) (cov : ℕ → ℕ → ℚ) (rf : ℚ)
    (draws : List (List ℚ)) :
    (simulate_efficient_frontier mean_returns cov rf draws).1.length =
      draws.length ∧
    ∀ i, i < draws.length →
      ((simulate_efficient_frontier mean_returns cov rf draws).1.getD i
        ⟨0, 0, 0⟩).vol = 0 →
      ((simulate_efficient_frontier mean_returns cov rf draws).1.getD i
        ⟨0, 0, 0⟩).sharpe = 0 := by
  constructor
  · simp [simulate_efficient_frontier]
  · intro i hi
    have hrw := getD_map_lt
      (fun u =>
        let w := normalizeWeights u
        let pr := portfolio_performance w mean_returns cov
        SimPoint.mk pr.2 pr.1 ((pr.1 - rf) / pr.2))
      draws i hi ⟨0, 0, 0⟩ []
    show ((simulate_efficient_frontier mean_returns cov rf draws).1.getD i
        ⟨0, 0, 0⟩).vol = 0 →
      ((simulate_efficient_frontier mean_returns cov rf draws).1.getD i
        ⟨0, 0, 0⟩).sharpe = 0
    simp only [simulate_efficient_frontier] at hrw ⊢
    rw [hrw]
    intro hv
    simp only [SimPoint.mk] at hv ⊢
    rw [hv, div_zero]

/-- C9 witness: the amended theorem applied at a concrete zero-volatility
instance (mean 2, zero covariance, risk-free rate 1, one draw). -/
theorem simulate_no_guard_witness :
    (simulate_efficient_frontier [2] (fun _ _ => 0) 1 [[2]]).1.length =
      [[(2 : ℚ)]].length ∧
    ∀ i, i < [[(2 : ℚ)]].length →
      ((simulate_efficient_frontier [2] (fun _ _ => 0) 1 [[2]]).1.getD i
        ⟨0, 0, 0⟩).vol = 0 →
      ((simulate_efficient_frontier [2] (fun _ _ => 0) 1 [[2]]).1.getD i
        ⟨0, 0, 0⟩).sharpe = 0 :=
  simulate_no_guard [2] (fun _ _ => 0) 1 [[2]]

/-! Hierarchical Risk Parity: inverse-variance portfolio, cluster variance,
and the recursive-bisection weighting loop of `getRecBisection`.  Covariance
matrices are label-indexed functions `ℕ → ℕ → ℚ` (the pandas `.loc` slice
`cov.loc[cItems, cItems]` becomes restriction to the label list `cItems`);
the `while` loop is embedded with fuel `sortIx.length`, which the lemma
`recBisLoop_eq_treeF` shows is enough for the loop to run to completion. -/

/-- Embedding of `getIVP(cov)` on the diagonal of the slice of `cov` at the
labels `items`: `ivp = 1/diag; ivp /= ivp.sum()`. -/
def getIVP (cov : ℕ → ℕ → ℚ) (items : List ℕ) : List ℚ :=
  let ivp := items.map (fun i => 1 / cov i i)
  ivp.map (fun x => x / ivp.sum)

/-- Embedding of `getClusterVar(cov, cItems)`: the quadratic form
`w^T cov[cItems, cItems] w` under the inverse-variance sub-allocation `w`. -/
def getClusterVar (cov : ℕ → ℕ → ℚ) (cItems : List ℕ) : ℚ :=
  let w := getIVP cov cItems
  ((cItems.zip w).map (fun p =>
    ((cItems.zip w).map (fun q => p.2 * cov p.1 q.1 * q.2)).sum)).sum

/-- The split factor `alpha = 1 - cVar0/(cVar0 + cVar1)` of one bisection
pair. -/
def splitAlpha (cov : ℕ → ℕ → ℚ) (c0 c1 : List ℕ) : ℚ :=
  1 - getClusterVar cov c0 / (getClusterVar cov c0 + getClusterVar cov c1)

/-- Contribution of one group to the list comprehension
`[i[j:k] for i in cItems for j,k in ((0,len(i)//2),(len(i)//2,len(i))) if len(i)>1]`:
a group of size > 1 yields its two contiguous halves, any other group is
dropped. -/
def bisectOne (i : List ℕ) : List (List ℕ) :=
  if 1 < i.length then [i.take (i.length / 2), i.drop (i.length / 2)] else []

/-- One bisection pass over the whole group list. -/
def bisect (cItems : List (List ℕ)) : List (List ℕ) :=
  (cItems.map bisectOne).flatten

/-- The two sequential updates `w[cItems0] *= alpha; w[cItems1] *= 1-alpha`
of one sibling pair, on a weight function over labels. -/
def applyPair (cov : ℕ → ℕ → ℚ) (c0 c1 : List ℕ) (w : ℕ → ℚ) : ℕ → ℚ :=
  fun a =>
    let w1 := fun b => if b ∈ c0 then splitAlpha cov c0 c1 * w b else w b
    if a ∈ c1 then (1 - splitAlpha cov c0 c1) * w1 a else w1 a

/-- The `for i in range(0, len(cItems), 2)` pass: process the bisected group
list two groups at a time (the list always has even length, so the dangling
singleton case below is dead code). -/
def applyPairs (cov : ℕ → ℕ → ℚ) : List (List ℕ) → (ℕ → ℚ) → (ℕ → ℚ)
  | c0 :: c1 :: rest, w => applyPairs cov rest (applyPair cov c0 c1 w)
  | _, w => w

/-- The `while len(cItems) > 0` loop of `getRecBisection`, with fuel. -/
def recBisLoop (cov : ℕ → ℕ → ℚ) : ℕ → List (List ℕ) → (ℕ → ℚ) → (ℕ → ℚ)
  | _, [], w => w
  | 0, _ :: _, w => w
  | fuel + 1, c :: cs, w =>
      let next := bisect (c :: cs)
      recBisLoop cov fuel next (applyPairs cov next w)

/-- Embedding of `getRecBisection(cov, sortIx)`: start from the constant
weight 1 (`pd.Series(1, index=sortIx)`) and the single group `sortIx`, and
run the bisection loop.  The fuel `sortIx.length` is sufficient: the longest
group shrinks by at least one per pass (see `recBisLoop_eq_treeF`).  The
returned function is meaningful on the labels in `sortIx`, exactly like the
returned pandas Series. -/
def getRecBisection (cov : ℕ → ℕ → ℚ) (sortIx : List ℕ) : ℕ → ℚ :=
  recBisLoop cov sortIx.length [sortIx] (fun _ => 1)

/-- Length of the longest group in a group list. -/
def maxLen (cItems : List (List ℕ)) : ℕ :=
  (cItems.map List.length).foldr max 0

/-- The per-leaf product of split factors along the bisection tree of a
group: the closed form of what the loop computes for a member of `g`
(proved in `recBisLoop_eq_treeF`). -/
def treeF (cov : ℕ → ℕ → ℚ) (g : List ℕ) (a : ℕ) : ℚ :=
  if h : 1 < g.length then
    if a ∈ g.take (g.length / 2) then
      splitAlpha cov (g.take (g.length / 2)) (g.drop (g.length / 2)) *
        treeF cov (g.take (g.length / 2)) a
    else if a ∈ g.drop (g.length / 2) then
      (1 - splitAlpha cov (g.take (g.length / 2)) (g.drop (g.length / 2))) *
        treeF cov (g.drop (g.length / 2)) a
    else 1
  else 1
termination_by g.length
decreasing_by
  · simp only [List.length_take]
    exact lt_of_le_of_lt (min_le_left _ _) (Nat.div_lt_self (by omega) (by omega))
  · simp only [List.length_drop]
    omega

/-- All groups arising in the bisection tree of `g` (the group itself, then
recursively the groups of its two halves), with explicit fuel so that the
list is kernel-computable on concrete inputs. -/
def allGroupsF : ℕ → List ℕ → List (List ℕ)
  | 0, g => [g]
  | fuel + 1, g =>
      if 1 < g.length then
        g :: (allGroupsF fuel (g.take (g.length / 2)) ++
              allGroupsF fuel (g.drop (g.length / 2)))
      else [g]

/-- All groups of the bisection tree of `g`. -/
def allGroups (g : List ℕ) : List (List ℕ) :=
  allGroupsF g.length g

/-- The pointwise multiplier applied to a label by one `applyPairs` pass. -/
def pairF (cov : ℕ → ℕ → ℚ) : List (List ℕ) → ℕ → ℚ
  | c0 :: c1 :: rest, a =>
      ((if a ∈ c1 then 1 - splitAlpha cov c0 c1 else 1) *
       (if a ∈ c0 then splitAlpha cov c0 c1 else 1)) * pairF cov rest a
  | _, _ => 1

theorem applyPair_eq (cov : ℕ → ℕ → ℚ) (c0 c1 : List ℕ) (w : ℕ → ℚ) (a : ℕ) :
    applyPair cov c0 c1 w a =
      ((if a ∈ c1 then 1 - splitAlpha cov c0 c1 else 1) *
       (if a ∈ c0 then splitAlpha cov c0 c1 else 1)) * w a := by
  simp only [applyPair]
  by_cases h1 : a ∈ c1 <;> by_cases h0 : a ∈ c0 <;>
    simp [h1, h0, mul_assoc]

theorem applyPairs_eq (cov : ℕ → ℕ → ℚ) : ∀ (L : List (List ℕ)) (w : ℕ → ℚ)
    (a : ℕ), applyPairs cov L w a = pairF cov L a * w a
  | [], w, a => by simp [applyPairs, pairF]
  | [c], w, a => by simp [applyPairs, pairF]
  | c0 :: c1 :: rest, w, a => by
      show applyPairs cov rest (applyPair cov c0 c1 w) a =
        pairF cov (c0 :: c1 :: rest) a * w a
      rw [applyPairs_eq cov rest (applyPair cov c0 c1 w) a, applyPair_eq]
      show pairF cov rest a * (_ * w a) = pairF cov (c0 :: c1 :: rest) a * w a
      simp only [pairF]
      ring

theorem pairF_of_not_mem (cov : ℕ → ℕ → ℚ) : ∀ (L : List (List ℕ)) (a : ℕ),
    (∀ c ∈ L, a ∉ c) → pairF cov L a = 1
  | [], _, _ => rfl
  | [c], _, _ => rfl
  | c0 :: c1 :: rest, a, h => by
      have h0 := h c0 (by simp)
      have h1 := h c1 (by simp)
      simp only [pairF, if_neg h0, if_neg h1,
        pairF_of_not_mem cov rest a (fun c hc => h c (by simp [hc])), one_mul]

theorem pairF_append (cov : ℕ → ℕ → ℚ) : ∀ (L1 L2 : List (List ℕ)) (a : ℕ),
    L1.length % 2 = 0 →
    pairF cov (L1 ++ L2) a = pairF cov L1 a * pairF cov L2 a
  | [], L2, a, _ => by simp [pairF]
  | [c], L2, a, h => by simp at h
  | c0 :: c1 :: rest, L2, a, h => by
      have hrest : rest.length % 2 = 0 := by
        simp only [List.length_cons] at h
        omega
      simp only [List.cons_append, pairF, List.append_eq,
        pairF_append cov rest L2 a hrest]
      ring

theorem bisect_cons (c : List ℕ) (cs : List (List ℕ)) :
    bisect (c :: cs) = bisectOne c ++ bisect cs := by
  simp [bisect]

theorem bisectOne_length_even (c : List ℕ) : (bisectOne c).length % 2 = 0 := by
  by_cases h : 1 < c.length <;> simp [bisectOne, h]

theorem take_mem_bisect {g : List ℕ} {cItems : List (List ℕ)} (hg : g ∈ cItems)
    (hlen : 1 < g.length) : g.take (g.length / 2) ∈ bisect cItems := by
  simp only [bisect, List.mem_flatten]
  exact ⟨bisectOne g, List.mem_map_of_mem _ hg, by simp [bisectOne, hlen]⟩

theorem drop_mem_bisect {g : List ℕ} {cItems : List (List ℕ)} (hg : g ∈ cItems)
    (hlen : 1 < g.length) : g.drop (g.length / 2) ∈ bisect cItems := by
  simp only [bisect, List.mem_flatten]
  exact ⟨bisectOne g, List.mem_map_of_mem _ hg, by simp [bisectOne, hlen]⟩

theorem of_mem_bisect {h : List ℕ} {cItems : List (List ℕ)}
    (hh : h ∈ bisect cItems) : ∃ g ∈ cItems, 1 < g.length ∧
      (h = g.take (g.length / 2) ∨ h = g.drop (g.length / 2)) := by
  simp only [bisect, List.mem_flatten, List.mem_map] at hh
  obtain ⟨_, ⟨g, hg, rfl⟩, hmem⟩ := hh
  by_cases hl : 1 < g.length
  · simp only [bisectOne, if_pos hl, List.mem_cons, List.not_mem_nil, or_false,
      List.mem_singleton] at hmem
    exact ⟨g, hg, hl, hmem⟩
  · simp [bisectOne, hl] at hmem

theorem nodup_take_drop_disjoint {g : List ℕ} (hnd : g.Nodup) (k : ℕ) :
    List.Disjoint (g.take k) (g.drop k) := by
  have h : (g.take k ++ g.drop k).Nodup := by
    rw [List.take_append_drop]; exact hnd
  exact (List.nodup_append.mp h).2.2

theorem bisect_groups_ok {cItems : List (List ℕ)}
    (hok : ∀ g ∈ cItems, g ≠ [] ∧ g.Nodup) :
    ∀ h ∈ bisect cItems, h ≠ [] ∧ h.Nodup := by
  intro h hh
  obtain ⟨g, hg, hlen, heq⟩ := of_mem_bisect hh
  have hnd := (hok g hg).2
  rcases heq with rfl | rfl
  · refine ⟨?_, hnd.sublist (List.take_sublist _ _)⟩
    rw [← List.length_pos, List.length_take]
    omega
  · refine ⟨?_, hnd.sublist (List.drop_sublist _ _)⟩
    rw [← List.length_pos, List.length_drop]
    omega

theorem subset_of_mem_bisectOne {x c : List ℕ} (hx : x ∈ bisectOne c) : x ⊆ c := by
  by_cases h : 1 < c.length
  · simp only [bisectOne, if_pos h, List.mem_cons, List.not_mem_nil, or_false,
      List.mem_singleton] at hx
    rcases hx with rfl | rfl
    exacts [List.take_subset _ _, List.drop_subset _ _]
  · simp [bisectOne, h] at hx

theorem subset_of_mem_bisect {x : List ℕ} {cItems : List (List ℕ)}
    (hx : x ∈ bisect cItems) : ∃ g ∈ cItems, x ⊆ g := by
  obtain ⟨g, hg, hlen, heq⟩ := of_mem_bisect hx
  refine ⟨g, hg, ?_⟩
  rcases heq with rfl | rfl
  exacts [List.take_subset _ _, List.drop_subset _ _]

theorem bisect_pairwise_disjoint {cItems : List (List ℕ)}
    (hok : ∀ g ∈ cItems, g.Nodup) (hdisj : cItems.Pairwise List.Disjoint) :
    (bisect cItems).Pairwise List.Disjoint := by
  induction cItems with
  | nil => simp [bisect, List.Pairwise.nil]
  | cons c cs ih =>
      rw [bisect_cons, List.pairwise_append]
      refine ⟨?_, ih (fun g hg => hok g (List.mem_cons_of_mem c hg))
        hdisj.of_cons, ?_⟩
      · by_cases h : 1 < c.length
        · simp only [bisectOne, if_pos h]
          refine List.pairwise_cons.mpr ⟨?_, by simp [List.Pairwise.nil]⟩
          intro b hb
          simp only [List.mem_singleton] at hb
          subst hb
          exact nodup_take_drop_disjoint (hok c (by simp)) _
        · simp [bisectOne, h, List.Pairwise.nil]
      · intro x hx y hy
        have hxc : x ⊆ c := subset_of_mem_bisectOne hx
        obtain ⟨g, hg, hyg⟩ := subset_of_mem_bisect hy
        have hcg : c.Disjoint g := (List.pairwise_cons.mp hdisj).1 g hg
        intro a hax hay
        exact hcg (hxc hax) (hyg hay)

theorem eq_of_mem_disjoint {cItems : List (List ℕ)}
    (hdisj : cItems.Pairwise List.Disjoint) {g g' : List ℕ} (hg : g ∈ cItems)
    (hg' : g' ∈ cItems) {a : ℕ} (ha : a ∈ g) (ha' : a ∈ g') : g = g' := by
  induction cItems with
  | nil => cases hg
  | cons c cs ih =>
      rcases List.mem_cons.mp hg with rfl | hgtl
      · rcases List.mem_cons.mp hg' with rfl | hg'tl
        · rfl
        · exact absurd ha' ((List.pairwise_cons.mp hdisj).1 g' hg'tl ha)
      · rcases List.mem_cons.mp hg' with rfl | hg'tl
        · exact absurd ha ((List.pairwise_cons.mp hdisj).1 g hgtl ha')
        · exact ih hdisj.of_cons hgtl hg'tl

theorem le_maxLen_of_mem {g : List ℕ} {L : List (List ℕ)} (hg : g ∈ L) :
    g.length ≤ maxLen L := by
  induction L with
  | nil => cases hg
  | cons c cs ih =>
      show g.length ≤ max c.length (maxLen cs)
      rcases List.mem_cons.mp hg with rfl | hg
      · exact le_max_left _ _
      · exact le_trans (ih hg) (le_max_right _ _)

theorem maxLen_le {L : List (List ℕ)} {k : ℕ} (h : ∀ g ∈ L, g.length ≤ k) :
    maxLen L ≤ k := by
  induction L with
  | nil => exact Nat.zero_le k
  | cons c cs ih =>
      show max c.length (maxLen cs) ≤ k
      exact max_le (h c (by simp)) (ih (fun g hg => h g (by simp [hg])))

theorem bisect_maxLen {cItems : List (List ℕ)} {k : ℕ}
    (hk : maxLen cItems ≤ k + 1) : maxLen (bisect cItems) ≤ k := by
  apply maxLen_le
  intro h hh
  obtain ⟨g, hg, hgl, heq⟩ := of_mem_bisect hh
  have hgle := le_maxLen_of_mem hg
  rcases heq with rfl | rfl
  · rw [List.length_take]
    omega
  · rw [List.length_drop]
    omega

theorem treeF_of_take (cov : ℕ → ℕ → ℚ) {g : List ℕ} (hlen : 1 < g.length)
    {a : ℕ} (hat : a ∈ g.take (g.length / 2)) :
    treeF cov g a =
      splitAlpha cov (g.take (g.length / 2)) (g.drop (g.length / 2)) *
        treeF cov (g.take (g.length / 2)) a := by
  rw [treeF, dif_pos hlen, if_pos hat]

theorem treeF_of_drop (cov : ℕ → ℕ → ℚ) {g : List ℕ} (hlen : 1 < g.length)
    {a : ℕ} (hnotat : a ∉ g.take (g.length / 2))
    (had : a ∈ g.drop (g.length / 2)) :
    treeF cov g a =
      (1 - splitAlpha cov (g.take (g.length / 2)) (g.drop (g.length / 2))) *
        treeF cov (g.drop (g.length / 2)) a := by
  rw [treeF, dif_pos hlen, if_neg hnotat, if_pos had]

theorem treeF_of_small (cov : ℕ → ℕ → ℚ) {g : List ℕ} (hlen : ¬1 < g.length)
    (a : ℕ) : treeF cov g a = 1 := by
  rw [treeF, dif_neg hlen]

theorem pairF_bisect (cov : ℕ → ℕ → ℚ) {cItems : List (List ℕ)}
    (hdisj : cItems.Pairwise List.Disjoint) {g : List ℕ} (hg : g ∈ cItems)
    (hlen : 1 < g.length) {a : ℕ} (ha : a ∈ g) :
    pairF cov (bisect cItems) a =
      (if a ∈ g.drop (g.length / 2) then
        1 - splitAlpha cov (g.take (g.length / 2)) (g.drop (g.length / 2))
       else 1) *
      (if a ∈ g.take (g.length / 2) then
        splitAlpha cov (g.take (g.length / 2)) (g.drop (g.length / 2))
       else 1) := by
  induction cItems with
  | nil => cases hg
  | cons c cs ih =>
      rw [bisect_cons, pairF_append cov _ _ a (bisectOne_length_even c)]
      rcases List.mem_cons.mp hg with rfl | hgtl
      · have htail : pairF cov (bisect cs) a = 1 := by
          apply pairF_of_not_mem
          intro h hh hah
          obtain ⟨g', hg', hsub⟩ := subset_of_mem_bisect hh
          exact (List.pairwise_cons.mp hdisj).1 g' hg' ha (hsub hah)
        rw [htail, mul_one]
        simp only [bisectOne, if_pos hlen, pairF, mul_one]
      · have hblock : pairF cov (bisectOne c) a = 1 := by
          apply pairF_of_not_mem
          intro h hh hah
          exact (List.pairwise_cons.mp hdisj).1 g hgtl
            (subset_of_mem_bisectOne hh hah) ha
        rw [hblock, one_mul]
        exact ih hdisj.of_cons hgtl

/-- The weight computed by the bisection loop for a member `a` of a group
`g` of the current group list is the incoming weight times the product of
split factors along `g`'s bisection tree; labels in no current group are
untouched. -/
theorem recBisLoop_eq_treeF (cov : ℕ → ℕ → ℚ) :
    ∀ (fuel : ℕ) (cItems : List (List ℕ)) (w : ℕ → ℚ),
      maxLen cItems ≤ fuel →
      (∀ g ∈ cItems, g ≠ [] ∧ g.Nodup) →
      cItems.Pairwise List.Disjoint →
      (∀ g ∈ cItems, ∀ a ∈ g,
        recBisLoop cov fuel cItems w a = w a * treeF cov g a) ∧
      (∀ a, (∀ g ∈ cItems, a ∉ g) → recBisLoop cov fuel cItems w a = w a) := by
  intro fuel
  induction fuel with
  | zero =>
      intro cItems w hfuel hok hdisj
      cases cItems with
      | nil =>
          exact ⟨fun g hg => absurd hg (List.not_mem_nil g), fun a _ => rfl⟩
      | cons c cs =>
          exfalso
          have h1 := le_maxLen_of_mem (List.mem_cons_self c cs)
          have h2 := (hok c (List.mem_cons_self c cs)).1
          have h3 : c.length = 0 := by omega
          exact h2 (List.length_eq_zero.mp h3)
  | succ fuel ih =>
      intro cItems w hfuel hok hdisj
      cases cItems with
      | nil =>
          exact ⟨fun g hg => absurd hg (List.not_mem_nil g), fun a _ => rfl⟩
      | cons c cs =>
          have hok' := bisect_groups_ok hok
          have hdisj' :=
            bisect_pairwise_disjoint (fun g hg => (hok g hg).2) hdisj
          have hfuel' : maxLen (bisect (c :: cs)) ≤ fuel := bisect_maxLen hfuel
          have IH := ih (bisect (c :: cs))
            (applyPairs cov (bisect (c :: cs)) w) hfuel' hok' hdisj'
          have hstep : ∀ b, recBisLoop cov (fuel + 1) (c :: cs) w b =
              recBisLoop cov fuel (bisect (c :: cs))
                (applyPairs cov (bisect (c :: cs)) w) b := fun b => rfl
          constructor
          · intro g hg a ha
            rw [hstep a]
            have hnd := (hok g hg).2
            by_cases hlen : 1 < g.length
            · have hsplit :
                  a ∈ g.take (g.length / 2) ∨ a ∈ g.drop (g.length / 2) := by
                apply List.mem_append.mp
                rw [List.take_append_drop]
                exact ha
              have hdisjtd := nodup_take_drop_disjoint hnd (g.length / 2)
              have hpf := pairF_bisect cov hdisj hg hlen ha
              rcases hsplit with hat | had
              · have hnotd : a ∉ g.drop (g.length / 2) :=
                  fun had => hdisjtd hat had
                rw [IH.1 _ (take_mem_bisect hg hlen) a hat, applyPairs_eq, hpf,
                  if_neg hnotd, if_pos hat, one_mul, treeF_of_take cov hlen hat]
                ring
              · have hnott : a ∉ g.take (g.length / 2) :=
                  fun hat => hdisjtd hat had
                rw [IH.1 _ (drop_mem_bisect hg hlen) a had, applyPairs_eq, hpf,
                  if_pos had, if_neg hnott, mul_one,
                  treeF_of_drop cov hlen hnott had]
                ring
            · have hnot : ∀ h ∈ bisect (c :: cs), a ∉ h := by
                intro h hh hah
                obtain ⟨g', hg', hlen', heq⟩ := of_mem_bisect hh
                have hag' : a ∈ g' := by
                  rcases heq with rfl | rfl
                  exacts [List.take_subset _ _ hah, List.drop_subset _ _ hah]
                have hgg := eq_of_mem_disjoint hdisj hg hg' ha hag'
                rw [hgg] at hlen
                exact hlen hlen'
              rw [IH.2 a hnot, applyPairs_eq, pairF_of_not_mem cov _ a hnot,
                one_mul, treeF_of_small cov hlen, mul_one]
          · intro a hnot
            have hnot' : ∀ h ∈ bisect (c :: cs), a ∉ h := by
              intro h hh hah
              obtain ⟨g', hg', hsub⟩ := subset_of_mem_bisect hh
              exact hnot g' hg' (hsub hah)
            rw [hstep a, IH.2 a hnot', applyPairs_eq,
              pairF_of_not_mem cov _ a hnot', one_mul]

/-- On the members of a duplicate-free ordering, `getRecBisection` computes
exactly the split-factor product `treeF`. -/
theorem getRecBisection_eq_treeF (cov : ℕ → ℕ → ℚ) {sortIx : List ℕ}
    (hnd : sortIx.Nodup) {a : ℕ} (ha : a ∈ sortIx) :
    getRecBisection cov sortIx a = treeF cov sortIx a := by
  have hne : sortIx ≠ [] := List.ne_nil_of_mem ha
  have h := (recBisLoop_eq_treeF cov sortIx.length [sortIx] (fun _ => 1)
    (by
      apply maxLen_le
      intro g hg
      simp only [List.mem_singleton] at hg
      subst hg
      exact le_refl _)
    (by
      intro g hg
      simp only [List.mem_singleton] at hg
      subst hg
      exact ⟨hne, hnd⟩)
    (List.pairwise_singleton _ _)).1 sortIx (by simp) a ha
  simpa [getRecBisection] using h

/-- The split-factor products over the members of a duplicate-free nonempty
group always add up to 1: each bisection level splits the parent's mass into
the `alpha`/`1 - alpha` shares of its two halves. -/
theorem treeF_sum (cov : ℕ → ℕ → ℚ) (g : List ℕ) (hne : g ≠ [])
    (hnd : g.Nodup) : (g.map (treeF cov g)).sum = 1 := by
  by_cases hlen : 1 < g.length
  · have hlt : g.length / 2 < g.length := Nat.div_lt_self (by omega) (by omega)
    have ht0 : g.take (g.length / 2) ≠ [] := by
      rw [← List.length_pos, List.length_take]
      omega
    have ht1 : g.drop (g.length / 2) ≠ [] := by
      rw [← List.length_pos, List.length_drop]
      omega
    have hnd0 : (g.take (g.length / 2)).Nodup :=
      hnd.sublist (List.take_sublist _ _)
    have hnd1 : (g.drop (g.length / 2)).Nodup :=
      hnd.sublist (List.drop_sublist _ _)
    have hdisjtd := nodup_take_drop_disjoint hnd (g.length / 2)
    have IH0 := treeF_sum cov (g.take (g.length / 2)) ht0 hnd0
    have IH1 := treeF_sum cov (g.drop (g.length / 2)) ht1 hnd1
    have hsplitmap : g.map (treeF cov g) =
        (g.take (g.length / 2)).map (treeF cov g) ++
          (g.drop (g.length / 2)).map (treeF cov g) := by
      rw [← List.map_append, List.take_append_drop]
    rw [hsplitmap, List.sum_append]
    have h0 : (g.take (g.length / 2)).map (treeF cov g) =
        (g.take (g.length / 2)).map (fun a =>
          splitAlpha cov (g.take (g.length / 2)) (g.drop (g.length / 2)) *
            treeF cov (g.take (g.length / 2)) a) :=
      List.map_congr_left (fun a ha => treeF_of_take cov hlen ha)
    have h1 : (g.drop (g.length / 2)).map (treeF cov g) =
        (g.drop (g.length / 2)).map (fun a =>
          (1 - splitAlpha cov (g.take (g.length / 2)) (g.drop (g.length / 2))) *
            treeF cov (g.drop (g.length / 2)) a) :=
      List.map_congr_left (fun a ha =>
        treeF_of_drop cov hlen (fun hat => hdisjtd hat ha) ha)
    rw [h0, h1, List.sum_map_mul_left, List.sum_map_mul_left, IH0, IH1]
    ring
  · have hlen1 : g.length = 1 := by
      have := List.length_pos.mpr hne
      omega
    match g, hlen1 with
    | [a], _ =>
        simp [treeF_of_small cov (by simp : ¬1 < ([a] : List ℕ).length)]
termination_by g.length
decreasing_by
  · simp only [List.length_take]
    exact lt_of_le_of_lt (min_le_left _ _) (Nat.div_lt_self (by omega) (by omega))
  · simp only [List.length_drop]
    omega

theorem allGroupsF_stable : ∀ (f1 f2 : ℕ) (g : List ℕ), g.length ≤ f1 →
    g.length ≤ f2 → allGroupsF f1 g = allGroupsF f2 g
  | 0, 0, _, _, _ => rfl
  | 0, f2 + 1, g, h1, _ => by
      have : ¬1 < g.length := by omega
      simp [allGroupsF, this]
  | f1 + 1, 0, g, _, h2 => by
      have : ¬1 < g.length := by omega
      simp [allGroupsF, this]
  | f1 + 1, f2 + 1, g, h1, h2 => by
      by_cases hlen : 1 < g.length
      · have htake : (g.take (g.length / 2)).length ≤ f1 := by
          rw [List.length_take]; omega
        have htake2 : (g.take (g.length / 2)).length ≤ f2 := by
          rw [List.length_take]; omega
        have hdrop : (g.drop (g.length / 2)).length ≤ f1 := by
          rw [List.length_drop]; omega
        have hdrop2 : (g.drop (g.length / 2)).length ≤ f2 := by
          rw [List.length_drop]; omega
        simp only [allGroupsF, if_pos hlen,
          allGroupsF_stable f1 f2 _ htake htake2,
          allGroupsF_stable f1 f2 _ hdrop hdrop2]
      · simp [allGroupsF, hlen]

theorem self_mem_allGroups (g : List ℕ) : g ∈ allGroups g := by
  unfold allGroups
  cases h : g.length with
  | zero => simp [allGroupsF]
  | succ n =>
      by_cases hlen : 1 < g.length <;> simp [allGroupsF, hlen]

theorem allGroups_take_mem {g h : List ℕ} (hlen : 1 < g.length)
    (hh : h ∈ allGroups (g.take (g.length / 2))) : h ∈ allGroups g := by
  unfold allGroups at hh ⊢
  match hg : g.length, hlen with
  | n + 2, _ =>
      have hle1 : (g.take (g.length / 2)).length ≤ n + 1 := by
        rw [List.length_take]; omega
      rw [allGroupsF_stable _ (n + 1) _ (le_of_eq (by rw [List.length_take, hg]))
        hle1] at hh
      have hlen' : 1 < g.length := by omega
      simp only [allGroupsF, if_pos hlen']
      exact List.mem_cons_of_mem _ (List.mem_append.mpr (Or.inl hh))

theorem allGroups_drop_mem {g h : List ℕ} (hlen : 1 < g.length)
    (hh : h ∈ allGroups (g.drop (g.length / 2))) : h ∈ allGroups g := by
  unfold allGroups at hh ⊢
  match hg : g.length, hlen with
  | n + 2, _ =>
      have hle1 : (g.drop (g.length / 2)).length ≤ n + 1 := by
        rw [List.length_drop]; omega
      rw [allGroupsF_stable _ (n + 1) _ (le_of_eq (by rw [List.length_drop, hg]))
        hle1] at hh
      have hlen' : 1 < g.length := by omega
      simp only [allGroupsF, if_pos hlen']
      exact List.mem_cons_of_mem _ (List.mem_append.mpr (Or.inr hh))

/-- When every cluster variance along the bisection tree of `g` is strictly
positive, every split factor lies strictly between 0 and 1 and hence every
split-factor product is strictly positive. -/
theorem treeF_pos (cov : ℕ → ℕ → ℚ) (g : List ℕ) (a : ℕ)
    (hpos : ∀ g' ∈ allGroups g, 0 < getClusterVar cov g') :
    0 < treeF cov g a := by
  by_cases hlen : 1 < g.length
  · have hv0 : 0 < getClusterVar cov (g.take (g.length / 2)) :=
      hpos _ (allGroups_take_mem hlen (self_mem_allGroups _))
    have hv1 : 0 < getClusterVar cov (g.drop (g.length / 2)) :=
      hpos _ (allGroups_drop_mem hlen (self_mem_allGroups _))
    have hsum : 0 < getClusterVar cov (g.take (g.length / 2)) +
        getClusterVar cov (g.drop (g.length / 2)) := by linarith
    have halpha0 : 0 <
        splitAlpha cov (g.take (g.length / 2)) (g.drop (g.length / 2)) := by
      unfold splitAlpha
      have : getClusterVar cov (g.take (g.length / 2)) /
          (getClusterVar cov (g.take (g.length / 2)) +
            getClusterVar cov (g.drop (g.length / 2))) < 1 :=
        (div_lt_one hsum).mpr (by linarith)
      linarith
    have halpha1 :
        splitAlpha cov (g.take (g.length / 2)) (g.drop (g.length / 2)) < 1 := by
      unfold splitAlpha
      have : 0 < getClusterVar cov (g.take (g.length / 2)) /
          (getClusterVar cov (g.take (g.length / 2)) +
            getClusterVar cov (g.drop (g.length / 2))) :=
        div_pos hv0 hsum
      linarith
    have hpos0 : ∀ g' ∈ allGroups (g.take (g.length / 2)),
        0 < getClusterVar cov g' :=
      fun g' hg' => hpos g' (allGroups_take_mem hlen hg')
    have hpos1 : ∀ g' ∈ allGroups (g.drop (g.length / 2)),
        0 < getClusterVar cov g' :=
      fun g' hg' => hpos g' (allGroups_drop_mem hlen hg')
    have IH0 := treeF_pos cov (g.take (g.length / 2)) a hpos0
    have IH1 := treeF_pos cov (g.drop (g.length / 2)) a hpos1
    rw [treeF, dif_pos hlen]
    by_cases hat : a ∈ g.take (g.length / 2)
    · rw [if_pos hat]
      exact mul_pos halpha0 IH0
    · rw [if_neg hat]
      by_cases had : a ∈ g.drop (g.length / 2)
      · rw [if_pos had]
        exact mul_pos (by linarith) IH1
      · rw [if_neg had]
        exact one_pos
  · rw [treeF_of_small cov hlen]
    exact one_pos
termination_by g.length
decreasing_by
  · simp only [List.length_take]
    exact lt_of_le_of_lt (min_le_left _ _) (Nat.div_lt_self (by omega) (by omega))
  · simp only [List.length_drop]
    omega

theorem sum_map_div (l : List ℚ) (r : ℚ) :
    (l.map (fun x => x / r)).sum = l.sum / r := by
  induction l with
  | nil => simp
  | cons x t ih => simp [ih, add_div]

theorem getIVP_scale (cov : ℕ → ℕ → ℚ) {c : ℚ} (hc : c ≠ 0) (items : List ℕ) :
    getIVP (fun i j => c * cov i j) items = getIVP cov items := by
  simp only [getIVP]
  have h1 : items.map (fun i => 1 / (c * cov i i)) =
      items.map (fun i => c⁻¹ * (1 / cov i i)) :=
    List.map_congr_left (fun i _ => by rw [one_div, mul_inv, one_div])
  rw [h1, List.sum_map_mul_left, List.map_map, List.map_map]
  apply List.map_congr_left
  intro i _
  show c⁻¹ * (1 / cov i i) / (c⁻¹ * (items.map (fun i => 1 / cov i i)).sum) =
    1 / cov i i / (items.map (fun i => 1 / cov i i)).sum
  exact mul_div_mul_left _ _ (inv_ne_zero hc)

theorem getClusterVar_scale (cov : ℕ → ℕ → ℚ) {c : ℚ} (hc : c ≠ 0)
    (items : List ℕ) :
    getClusterVar (fun i j => c * cov i j) items =
      c * getClusterVar cov items := by
  simp only [getClusterVar, getIVP_scale cov hc]
  rw [← List.sum_map_mul_left]
  apply congrArg List.sum
  apply List.map_congr_left
  intro p _
  rw [← List.sum_map_mul_left]
  apply congrArg List.sum
  apply List.map_congr_left
  intro q _
  ring

theorem splitAlpha_scale (cov : ℕ → ℕ → ℚ) {c : ℚ} (hc : c ≠ 0)
    (c0 c1 : List ℕ) :
    splitAlpha (fun i j => c * cov i j) c0 c1 = splitAlpha cov c0 c1 := by
  simp only [splitAlpha, getClusterVar_scale cov hc]
  rw [← mul_add, mul_div_mul_left _ _ hc]

theorem applyPair_scale (cov : ℕ → ℕ → ℚ) {c : ℚ} (hc : c ≠ 0)
    (c0 c1 : List ℕ) (w : ℕ → ℚ) :
    applyPair (fun i j => c * cov i j) c0 c1 w = applyPair cov c0 c1 w := by
  funext a
  simp only [applyPair, splitAlpha_scale cov hc]

theorem applyPairs_scale (cov : ℕ → ℕ → ℚ) {c : ℚ} (hc : c ≠ 0) :
    ∀ (L : List (List ℕ)) (w : ℕ → ℚ),
      applyPairs (fun i j => c * cov i j) L w = applyPairs cov L w
  | [], _ => rfl
  | [c0], _ => rfl
  | c0 :: c1 :: rest, w => by
      show applyPairs _ rest (applyPair _ c0 c1 w) =
        applyPairs cov rest (applyPair cov c0 c1 w)
      rw [applyPair_scale cov hc, applyPairs_scale cov hc rest]

theorem recBisLoop_scale (cov : ℕ → ℕ → ℚ) {c : ℚ} (hc : c ≠ 0) :
    ∀ (fuel : ℕ) (cItems : List (List ℕ)) (w : ℕ → ℚ),
      recBisLoop (fun i j => c * cov i j) fuel cItems w =
        recBisLoop cov fuel cItems w := by
  intro fuel
  induction fuel with
  | zero =>
      intro cItems w
      cases cItems <;> rfl
  | succ fuel ih =>
      intro cItems w
      cases cItems with
      | nil => rfl
      | cons g cs =>
          show recBisLoop _ fuel (bisect (g :: cs))
              (applyPairs _ (bisect (g :: cs)) w) = _
          rw [applyPairs_scale cov hc, ih]
          rfl

/-- C5: recursive bisection is scale-invariant: scaling the whole covariance
matrix by a positive constant leaves every weight unchanged (the
inverse-variance sub-allocations and hence the cluster-variance ratio
defining each split factor are invariant). -/
theorem hrp_scale_invariant (cov : ℕ → ℕ → ℚ) (sortIx : List ℕ) (c : ℚ)
    (hc : 0 < c) :
    getRecBisection (fun i j => c * cov i j) sortIx =
      getRecBisection cov sortIx := by
  unfold getRecBisection
  rw [recBisLoop_scale cov (ne_of_gt hc)]

/-- Concrete 2×2 identity covariance used by witnesses. -/
def covW : ℕ → ℕ → ℚ := fun i j => if i = j then 1 else 0

/-- C5 witness: scale invariance applied at the identity covariance, the
ordering `[0, 1]` and the constant 2. -/
theorem hrp_scale_invariant_witness :
    getRecBisection (fun i j => 2 * covW i j) [0, 1] =
      getRecBisection covW [0, 1] :=
  hrp_scale_invariant covW [0, 1] 2 (by norm_num)

/-- C1 (amended): every Monte Carlo weight vector built from a nonempty
draw of samples in (0,1) sums to exactly 1 with nonnegative entries, and
the HRP weight vector of a duplicate-free nonempty ordering sums to exactly
1 with strictly positive entries provided every cluster variance arising in
the bisection tree is strictly positive (a strictly positive covariance
diagonal alone is not enough; see the counterexample). -/
theorem weight_vectors_sum_to_one :
    (∀ (mean_returns : List ℚ) (cov : ℕ → ℕ → ℚ) (rf : ℚ)
        (draws : List (List ℚ)),
      (∀ u ∈ draws, u ≠ [] ∧ ∀ x ∈ u, 0 < x ∧ x < 1) →
      ∀ w ∈ (simulate_efficient_frontier mean_returns cov rf draws).2,
        w.sum = 1 ∧ ∀ x ∈ w, 0 ≤ x) ∧
    (∀ (cov : ℕ → ℕ → ℚ) (sortIx : List ℕ), sortIx ≠ [] → sortIx.Nodup →
      (∀ g ∈ allGroups sortIx, 0 < getClusterVar cov g) →
      (sortIx.map (getRecBisection cov sortIx)).sum = 1 ∧
        ∀ a ∈ sortIx, 0 < getRecBisection cov sortIx a) := by
  constructor
  · intro mean_returns cov rf draws hdraws w hw
    simp only [simulate_efficient_frontier] at hw
    rcases List.mem_map.mp hw with ⟨u, hu, rfl⟩
    obtain ⟨hne, hpos⟩ := hdraws u hu
    have hsumpos : 0 < u.sum := List.sum_pos u (fun x hx => (hpos x hx).1) hne
    constructor
    · show (u.map (fun x => x / u.sum)).sum = 1
      rw [sum_map_div, div_self (ne_of_gt hsumpos)]
    · intro x hx
      rcases List.mem_map.mp hx with ⟨y, hy, rfl⟩
      exact div_nonneg (le_of_lt (hpos y hy).1) (le_of_lt hsumpos)
  · intro cov sortIx hne hnd hpos
    constructor
    · rw [List.map_congr_left
        (fun a ha => getRecBisection_eq_treeF cov hnd ha)]
      exact treeF_sum cov sortIx hne hnd
    · intro a ha
      rw [getRecBisection_eq_treeF cov hnd ha]
      exact treeF_pos cov sortIx a hpos

/-- Concrete 3-asset positive-semidefinite covariance matrix with strictly
positive diagonal whose assets 1 and 2 are perfectly anti-correlated:
`[[1,0,0],[0,1,-1],[0,-1,1]]`. -/
def covC : ℕ → ℕ → ℚ := fun i j =>
  if i = j then 1 else if (i = 1 ∧ j = 2) ∨ (i = 2 ∧ j = 1) then -1 else 0

/-- C1 counterexample: `covC` has a strictly positive diagonal (it is even
positive semidefinite), yet recursive bisection on the ordering `[0, 1, 2]`
assigns asset 0 the weight 0 — the anti-correlated cluster `[1, 2]` has
cluster variance 0, so the split factor is 0, not strictly between 0 and 1,
refuting the claim that the HRP weights are all strictly positive whenever
the covariance diagonal is. -/
theorem hrp_positive_diag_zero_weight :
    (∀ i, 0 < covC i i) ∧ (([0, 1, 2] : List ℕ).Nodup) ∧
      getRecBisection covC [0, 1, 2] 0 = 0 := by
  refine ⟨fun i => by simp [covC], by decide, ?_⟩
  rw [getRecBisection_eq_treeF covC (by decide) (by decide)]
  have htake : (([0, 1, 2] : List ℕ).take (([0, 1, 2] : List ℕ).length / 2)) =
      [0] := by decide
  have hdrop : (([0, 1, 2] : List ℕ).drop (([0, 1, 2] : List ℕ).length / 2)) =
      [1, 2] := by decide
  rw [treeF_of_take covC (by decide) (by rw [htake]; decide)]
  rw [htake, hdrop]
  rw [treeF_of_small covC (by decide) 0, mul_one]
  norm_num [splitAlpha, getClusterVar, getIVP, covC]

/-- C1 witness: the amended theorem applied to one concrete draw and to the
identity covariance with ordering `[0, 1]`. -/
theorem weight_vectors_sum_to_one_witness :
    (∀ w ∈ (simulate_efficient_frontier [1] covW 0 [[1/2, 1/4]]).2,
      w.sum = 1 ∧ ∀ x ∈ w, 0 ≤ x) ∧
    ((([0, 1] : List ℕ).map (getRecBisection covW [0, 1])).sum = 1 ∧
      ∀ a ∈ ([0, 1] : List ℕ), 0 < getRecBisection covW [0, 1] a) :=
  ⟨weight_vectors_sum_to_one.1 [1] covW 0 [[1/2, 1/4]] (by
    intro u hu
    simp only [List.mem_singleton] at hu
    subst hu
    refine ⟨by simp, ?_⟩
    intro x hx
    simp only [List.mem_cons, List.not_mem_nil, or_false] at hx
    rcases hx with rfl | rfl <;> norm_num),
   weight_vectors_sum_to_one.2 covW [0, 1] (by simp) (by decide) (by
    intro g hg
    have he : allGroups [0, 1] = [[0, 1], [0], [1]] := by decide
    rw [he] at hg
    simp only [List.mem_cons, List.not_mem_nil, or_false,
      List.mem_singleton] at hg
    rcases hg with rfl | rfl | rfl <;>
      norm_num [getClusterVar, getIVP, covW])⟩

/-! Quasi-diagonal ordering.  A linkage row holds the two child cluster
identifiers, the merge distance and the member count of the merged cluster
(`getQuasiDiag` first applies `astype(int)`, which only matters for the
distance column it never reads; the distance is kept as the raw rational).
The `while sortIx.max() >= numItems` loop replaces, in one vectorized pass,
every entry that is a synthetic cluster id `e >= numItems` by the two
children of merge row `e - numItems`, keeping original indices in place;
it is embedded with fuel `numItems + link.length`, proved sufficient. -/

structure LinkRow where
  left : ℕ
  right : ℕ
  dist : ℚ
  count : ℕ

/-- Out-of-range default row (embedding artefact; every theorem constrains
indices to be in range). -/
def defaultRow : LinkRow := ⟨0, 0, 0, 0⟩

/-- The final merge row `link[-1]`. -/
def lastRow (link : List LinkRow) : LinkRow :=
  link.getD (link.length - 1) defaultRow

/-- One pass of the expansion loop body: each entry `e ≥ numItems` becomes
the pair `[link[e - numItems, 0], link[e - numItems, 1]]` in place, any
other entry stays. -/
def expandStep (link : List LinkRow) (numItems : ℕ) (xs : List ℕ) : List ℕ :=
  (xs.map (fun e =>
    if numItems ≤ e then
      [(link.getD (e - numItems) defaultRow).left,
       (link.getD (e - numItems) defaultRow).right]
    else [e])).flatten

/-- Largest entry of a list of naturals (`sortIx.max()`; 0 for empty). -/
def listMaxN (xs : List ℕ) : ℕ := xs.foldr max 0

/-- The `while sortIx.max() >= numItems` loop, with fuel. -/
def quasiLoop (link : List LinkRow) (numItems : ℕ) : ℕ → List ℕ → List ℕ
  | 0, xs => xs
  | fuel + 1, xs =>
      if numItems ≤ listMaxN xs then
        quasiLoop link numItems fuel (expandStep link numItems xs)
      else xs

/-- Embedding of `getQuasiDiag(link)`: start from the two children of the
final merge, with `numItems = link[-1, 3]`, and expand until only original
indices remain.  Fuel `numItems + link.length` is sufficient (the maximum
entry strictly decreases each pass while the loop condition holds). -/
def getQuasiDiag (link : List LinkRow) : List ℕ :=
  let numItems := (lastRow link).count
  quasiLoop link numItems (numItems + link.length)
    [(lastRow link).left, (lastRow link).right]

/-- The multiset of original leaves below a cluster identifier: an original
index is its own leaf; a synthetic id `e ≥ numItems` whose merge row exists
and has strictly smaller children collects the leaves of its two children
(the guard fails only on malformed linkages, which the theorems exclude). -/
def leaves (link : List LinkRow) (numItems : ℕ) (e : ℕ) : Multiset ℕ :=
  if e < numItems then {e}
  else if hj : e - numItems < link.length ∧
      (link.getD (e - numItems) defaultRow).left < e ∧
      (link.getD (e - numItems) defaultRow).right < e then
    leaves link numItems (link.getD (e - numItems) defaultRow).left +
      leaves link numItems (link.getD (e - numItems) defaultRow).right
  else {e}
termination_by e
decreasing_by
  · exact hj.2.1
  · exact hj.2.2

theorem leaves_lt {link : List LinkRow} {n e : ℕ} (h : e < n) :
    leaves link n e = {e} := by
  rw [leaves, if_pos h]

theorem leaves_node {link : List LinkRow} {n e : ℕ}
    (hcb : ∀ j, j < link.length → (link.getD j defaultRow).left < n + j ∧
      (link.getD j defaultRow).right < n + j)
    (hge : n ≤ e) (hlt : e < n + link.length) :
    leaves link n e =
      leaves link n (link.getD (e - n) defaultRow).left +
        leaves link n (link.getD (e - n) defaultRow).right := by
  have hj : e - n < link.length := by omega
  have h1 := hcb (e - n) hj
  rw [leaves, if_neg (by omega), dif_pos ⟨hj, by omega, by omega⟩]

theorem le_listMaxN {e : ℕ} {xs : List ℕ} (he : e ∈ xs) : e ≤ listMaxN xs := by
  induction xs with
  | nil => cases he
  | cons x t ih =>
      show e ≤ max x (listMaxN t)
      rcases List.mem_cons.mp he with rfl | h
      · exact le_max_left _ _
      · exact le_trans (ih h) (le_max_right _ _)

theorem listMaxN_lt {xs : List ℕ} {k : ℕ} (hk : 0 < k)
    (h : ∀ e ∈ xs, e < k) : listMaxN xs < k := by
  induction xs with
  | nil => simpa [listMaxN]
  | cons x t ih =>
      show max x (listMaxN t) < k
      exact max_lt (h x (by simp)) (ih fun e he => h e (by simp [he]))

theorem expandStep_cons (link : List LinkRow) (n e : ℕ) (xs : List ℕ) :
    expandStep link n (e :: xs) =
      (if n ≤ e then
        [(link.getD (e - n) defaultRow).left,
         (link.getD (e - n) defaultRow).right]
       else [e]) ++ expandStep link n xs := by
  simp [expandStep]

theorem expandStep_sum {link : List LinkRow} {n : ℕ}
    (hcb : ∀ j, j < link.length → (link.getD j defaultRow).left < n + j ∧
      (link.getD j defaultRow).right < n + j) :
    ∀ (xs : List ℕ), (∀ e ∈ xs, e < n + link.length) →
      ((expandStep link n xs).map (leaves link n)).sum =
        (xs.map (leaves link n)).sum
  | [], _ => rfl
  | e :: xs, hb => by
      rw [expandStep_cons, List.map_append, List.sum_append,
        expandStep_sum hcb xs (fun x hx => hb x (by simp [hx])),
        List.map_cons, List.sum_cons]
      congr 1
      by_cases hle : n ≤ e
      · rw [if_pos hle, leaves_node hcb hle (hb e (by simp))]
        simp
      · rw [if_neg hle]
        simp

theorem expandStep_bound {link : List LinkRow} {n : ℕ}
    (hcb : ∀ j, j < link.length → (link.getD j defaultRow).left < n + j ∧
      (link.getD j defaultRow).right < n + j) :
    ∀ (xs : List ℕ), (∀ e ∈ xs, e < n + link.length) →
      ∀ e' ∈ expandStep link n xs, e' < n + link.length
  | [], _, e', he' => absurd he' (by simp [expandStep])
  | e :: xs, hb, e', he' => by
      rw [expandStep_cons, List.mem_append] at he'
      rcases he' with h | h
      · by_cases hle : n ≤ e
        · rw [if_pos hle] at h
          have hj : e - n < link.length := by
            have := hb e (by simp)
            omega
          have hch := hcb (e - n) hj
          simp only [List.mem_cons, List.not_mem_nil, or_false,
            List.mem_singleton] at h
          rcases h with rfl | rfl <;> omega
        · rw [if_neg hle] at h
          simp only [List.mem_singleton] at h
          subst h
          exact hb e' (by simp)
      · exact expandStep_bound hcb xs (fun x hx => hb x (by simp [hx])) e' h

theorem expandStep_decrease {link : List LinkRow} {n : ℕ}
    (hcb : ∀ j, j < link.length → (link.getD j defaultRow).left < n + j ∧
      (link.getD j defaultRow).right < n + j) :
    ∀ (xs : List ℕ), (∀ e ∈ xs, e < n + link.length) →
      ∀ e' ∈ expandStep link n xs, e' < n ∨ ∃ e ∈ xs, e' < e
  | [], _, e', he' => absurd he' (by simp [expandStep])
  | e :: xs, hb, e', he' => by
      rw [expandStep_cons, List.mem_append] at he'
      rcases he' with h | h
      · by_cases hle : n ≤ e
        · rw [if_pos hle] at h
          have hj : e - n < link.length := by
            have := hb e (by simp)
            omega
          have hch := hcb (e - n) hj
          simp only [List.mem_cons, List.not_mem_nil, or_false,
            List.mem_singleton] at h
          right
          exact ⟨e, by simp, by rcases h with rfl | rfl <;> omega⟩
        · rw [if_neg hle] at h
          simp only [List.mem_singleton] at h
          subst h
          left
          omega
      · rcases expandStep_decrease hcb xs
          (fun x hx => hb x (by simp [hx])) e' h with h1 | ⟨x, hx, h2⟩
        · exact Or.inl h1
        · exact Or.inr ⟨x, by simp [hx], h2⟩

theorem expandStep_nil (link : List LinkRow) (n : ℕ) :
    expandStep link n [] = [] := rfl

theorem quasiLoop_nil (link : List LinkRow) (n : ℕ) :
    ∀ fuel, quasiLoop link n fuel [] = []
  | 0 => rfl
  | fuel + 1 => by
      show (if n ≤ listMaxN [] then
        quasiLoop link n fuel (expandStep link n []) else []) = []
      rw [expandStep_nil]
      split
      · exact quasiLoop_nil link n fuel
      · rfl

theorem quasiLoop_fix (link : List LinkRow) (n : ℕ) {xs : List ℕ}
    (h : ¬n ≤ listMaxN xs) : ∀ fuel, quasiLoop link n fuel xs = xs
  | 0 => rfl
  | fuel + 1 => by simp only [quasiLoop, if_neg h]

/-- If `n + fuel` exceeds the current maximum entry, the expansion loop
reaches its fixed point within the fuel: it preserves the total leaf
multiset and ends with only original indices (< n). -/
theorem quasiLoop_spec {link : List LinkRow} {n : ℕ}
    (hcb : ∀ j, j < link.length → (link.getD j defaultRow).left < n + j ∧
      (link.getD j defaultRow).right < n + j) :
    ∀ (fuel : ℕ) (xs : List ℕ), (∀ e ∈ xs, e < n + link.length) →
      listMaxN xs < n + fuel →
      ((quasiLoop link n fuel xs).map (leaves link n)).sum =
        (xs.map (leaves link n)).sum ∧
      (∀ e ∈ quasiLoop link n fuel xs, e < n) := by
  intro fuel
  induction fuel with
  | zero =>
      intro xs hb hmax
      refine ⟨rfl, ?_⟩
      intro e he
      have he2 : e ∈ xs := he
      have := le_listMaxN he2
      omega
  | succ fuel ih =>
      intro xs hb hmax
      cases xs with
      | nil =>
          rw [quasiLoop_nil]
          exact ⟨rfl, fun e he => absurd he (by simp)⟩
      | cons x t =>
          by_cases hcond : n ≤ listMaxN (x :: t)
          · have hstep : quasiLoop link n (fuel + 1) (x :: t) =
                quasiLoop link n fuel (expandStep link n (x :: t)) := by
              simp only [quasiLoop, if_pos hcond]
            have hposf : 0 < n + fuel := by
              by_contra hnf
              have hn0 : n = 0 := by omega
              have hlk : link.length = 0 := by
                by_contra hl
                have := hcb 0 (by omega)
                omega
              have := hb x (by simp)
              omega
            have hb' := expandStep_bound hcb (x :: t) hb
            have hmax' : listMaxN (expandStep link n (x :: t)) < n + fuel := by
              apply listMaxN_lt hposf
              intro e' he'
              rcases expandStep_decrease hcb (x :: t) hb e' he' with h1 | ⟨e, he, h2⟩
              · omega
              · have := le_listMaxN he
                omega
            obtain ⟨hsum, hsmall⟩ := ih (expandStep link n (x :: t)) hb' hmax'
            rw [hstep]
            exact ⟨hsum.trans (expandStep_sum hcb (x :: t) hb), hsmall⟩
          · rw [quasiLoop_fix link n hcond]
            refine ⟨rfl, ?_⟩
            intro e he
            have := le_listMaxN he
            omega

/-- The result is unchanged by any surplus fuel once `n + fuel` exceeds the
current maximum entry: the loop genuinely terminates. -/
theorem quasiLoop_stable {link : List LinkRow} {n : ℕ}
    (hcb : ∀ j, j < link.length → (link.getD j defaultRow).left < n + j ∧
      (link.getD j defaultRow).right < n + j) :
    ∀ (fuel : ℕ) (xs : List ℕ), (∀ e ∈ xs, e < n + link.length) →
      listMaxN xs < n + fuel →
      ∀ extra, quasiLoop link n (fuel + extra) xs = quasiLoop link n fuel xs := by
  intro fuel
  induction fuel with
  | zero =>
      intro xs hb hmax extra
      have hfix : ¬n ≤ listMaxN xs := by omega
      rw [quasiLoop_fix link n hfix, quasiLoop_fix link n hfix]
  | succ fuel ih =>
      intro xs hb hmax extra
      cases xs with
      | nil => rw [quasiLoop_nil, quasiLoop_nil]
      | cons x t =>
          by_cases hcond : n ≤ listMaxN (x :: t)
          · have harith : fuel + 1 + extra = (fuel + extra) + 1 := by omega
            rw [harith]
            have hstep1 : quasiLoop link n ((fuel + extra) + 1) (x :: t) =
                quasiLoop link n (fuel + extra) (expandStep link n (x :: t)) := by
              simp only [quasiLoop, if_pos hcond]
            have hstep2 : quasiLoop link n (fuel + 1) (x :: t) =
                quasiLoop link n fuel (expandStep link n (x :: t)) := by
              simp only [quasiLoop, if_pos hcond]
            have hposf : 0 < n + fuel := by
              by_contra hnf
              have hn0 : n = 0 := by omega
              have hlk : link.length = 0 := by
                by_contra hl
                have := hcb 0 (by omega)
                omega
              have := hb x (by simp)
              omega
            have hb' := expandStep_bound hcb (x :: t) hb
            have hmax' : listMaxN (expandStep link n (x :: t)) < n + fuel := by
              apply listMaxN_lt hposf
              intro e' he'
              rcases expandStep_decrease hcb (x :: t) hb e' he' with h1 | ⟨e, he, h2⟩
              · omega
              · have := le_listMaxN he
                omega
            rw [hstep1, hstep2, ih (expandStep link n (x :: t)) hb' hmax' extra]
          · rw [quasiLoop_fix link n hcond, quasiLoop_fix link n hcond]

theorem map_getD_range {α β : Type} (d : α) (f : α → β) : ∀ (l : List α),
    (List.range l.length).map (fun j => f (l.getD j d)) = l.map f
  | [] => rfl
  | x :: t => by
      rw [List.length_cons, List.range_succ_eq_map, List.map_cons,
        List.getD_cons_zero, List.map_map, List.map_cons]
      congr 1
      rw [← map_getD_range d f t]
      apply List.map_congr_left
      intro j hj
      simp [Function.comp, List.getD_cons_succ]

theorem sum_singletons : ∀ (l : List ℕ),
    (l.map (fun e => ({e} : Multiset ℕ))).sum = ↑l
  | [] => rfl
  | x :: t => by
      rw [List.map_cons, List.sum_cons, sum_singletons t,
        Multiset.singleton_add, Multiset.cons_coe]

/-- The multiset of leaves below the root cluster of a linkage in which
every cluster identifier except the root is referenced exactly once as a
child is exactly `{0, …, numItems - 1}`: summing the leaf multisets over all
merge rows counts every internal cluster once on each side of the equation
except the root, which therefore collects every original index exactly
once. -/
theorem root_leaves (link : List LinkRow) (n : ℕ) (hlen : 1 ≤ link.length)
    (hcb : ∀ j, j < link.length → (link.getD j defaultRow).left < n + j ∧
      (link.getD j defaultRow).right < n + j)
    (heo : (link.map (fun r => [r.left, r.right])).flatten.Perm
      (List.range (n + link.length - 1))) :
    leaves link n (n + (link.length - 1)) = ↑(List.range n) := by
  have hA : ((List.range link.length).map (fun j => leaves link n (n + j))).sum
      = ((List.range link.length).map (fun j =>
          leaves link n (link.getD j defaultRow).left +
          leaves link n (link.getD j defaultRow).right)).sum := by
    apply congrArg List.sum
    apply List.map_congr_left
    intro j hj
    rw [List.mem_range] at hj
    rw [leaves_node hcb (by omega) (by omega)]
    simp only [Nat.add_sub_cancel_left]
  have hB : ((link.map (fun r => [r.left, r.right])).flatten.map
      (leaves link n)).sum
      = ((List.range link.length).map (fun j =>
          leaves link n (link.getD j defaultRow).left +
          leaves link n (link.getD j defaultRow).right)).sum := by
    rw [map_getD_range defaultRow
      (fun r => leaves link n r.left + leaves link n r.right) link]
    rw [List.map_flatten, List.sum_flatten, List.map_map, List.map_map]
    apply congrArg List.sum
    apply List.map_congr_left
    intro r _
    simp [Function.comp]
  have hC : ((link.map (fun r => [r.left, r.right])).flatten.map
      (leaves link n)).sum
      = ((List.range (n + link.length - 1)).map (leaves link n)).sum :=
    (List.Perm.map (leaves link n) heo).sum_eq
  have hD : ((List.range (n + link.length - 1)).map (leaves link n)).sum
      = (↑(List.range n) : Multiset ℕ) +
        ((List.range (link.length - 1)).map
          (fun j => leaves link n (n + j))).sum := by
    have hrw : n + link.length - 1 = n + (link.length - 1) := by omega
    rw [hrw, List.range_add, List.map_append, List.sum_append]
    congr 1
    · rw [List.map_congr_left
        (fun id hid => leaves_lt (List.mem_range.mp hid))]
      exact sum_singletons (List.range n)
    · rw [List.map_map]
      rfl
  have hE : ((List.range link.length).map (fun j => leaves link n (n + j))).sum
      = ((List.range (link.length - 1)).map
          (fun j => leaves link n (n + j))).sum +
        leaves link n (n + (link.length - 1)) := by
    have h1 : link.length = (link.length - 1) + 1 := by omega
    conv_lhs => rw [h1]
    rw [List.range_succ, List.map_append, List.sum_append]
    simp
  have hfinal : ((List.range (link.length - 1)).map
      (fun j => leaves link n (n + j))).sum +
        leaves link n (n + (link.length - 1))
      = (↑(List.range n) : Multiset ℕ) +
        ((List.range (link.length - 1)).map
          (fun j => leaves link n (n + j))).sum := by
    rw [← hE, hA, ← hB, hC, hD]
  rw [add_comm (↑(List.range n) : Multiset ℕ)] at hfinal
  exact add_left_cancel hfinal

/-- Under the child-bound condition and the exactly-once child condition,
the quasi-diagonal ordering is a permutation of the original indices
`{0, …, N - 1}` (shared workhorse for the permutation and re-indexing
results). -/
theorem quasiDiag_perm_aux (link : List LinkRow) (hne : link ≠ [])
    (hcb : ∀ j, j < link.length →
      (link.getD j defaultRow).left < (lastRow link).count + j ∧
      (link.getD j defaultRow).right < (lastRow link).count + j)
    (heo : (link.map (fun r => [r.left, r.right])).flatten.Perm
      (List.range ((lastRow link).count + link.length - 1))) :
    (getQuasiDiag link).Perm (List.range (lastRow link).count) := by
  have hlen : 1 ≤ link.length := by
    cases link with
    | nil => exact absurd rfl hne
    | cons _ _ => simp
  have hgetd : link.getD (link.length - 1) defaultRow = lastRow link := rfl
  have hinitb : ∀ e ∈ [(lastRow link).left, (lastRow link).right],
      e < (lastRow link).count + link.length := by
    intro e he
    have hlast := hcb (link.length - 1) (by omega)
    rw [hgetd] at hlast
    simp only [List.mem_cons, List.not_mem_nil, or_false,
      List.mem_singleton] at he
    rcases he with rfl | rfl <;> omega
  have hinitmax : listMaxN [(lastRow link).left, (lastRow link).right] <
      (lastRow link).count + ((lastRow link).count + link.length) := by
    apply listMaxN_lt (by omega)
    intro e he
    have := hinitb e he
    omega
  obtain ⟨hsum, hsmall⟩ := quasiLoop_spec hcb
    ((lastRow link).count + link.length)
    [(lastRow link).left, (lastRow link).right] hinitb hinitmax
  have hsum' : ((getQuasiDiag link).map (leaves link (lastRow link).count)).sum
      = ([(lastRow link).left, (lastRow link).right].map
          (leaves link (lastRow link).count)).sum := hsum
  have hsmall' : ∀ e ∈ getQuasiDiag link, e < (lastRow link).count := hsmall
  have hres : ((getQuasiDiag link).map (leaves link (lastRow link).count)).sum
      = (↑(getQuasiDiag link) : Multiset ℕ) := by
    rw [List.map_congr_left (fun e he => leaves_lt (hsmall' e he))]
    exact sum_singletons _
  have hinitsum : ([(lastRow link).left, (lastRow link).right].map
      (leaves link (lastRow link).count)).sum
      = leaves link (lastRow link).count
          ((lastRow link).count + (link.length - 1)) := by
    rw [leaves_node hcb (by omega) (by omega)]
    simp only [Nat.add_sub_cancel_left, hgetd]
    simp
  have hroot := root_leaves link (lastRow link).count hlen hcb heo
  apply Multiset.coe_eq_coe.mp
  calc (↑(getQuasiDiag link) : Multiset ℕ)
      = ((getQuasiDiag link).map (leaves link (lastRow link).count)).sum :=
        hres.symm
    _ = ([(lastRow link).left, (lastRow link).right].map
          (leaves link (lastRow link).count)).sum := hsum'
    _ = leaves link (lastRow link).count
          ((lastRow link).count + (link.length - 1)) := hinitsum
    _ = ↑(List.range (lastRow link).count) := hroot

/-- C4 (amended): for a nonempty linkage whose rows reference only earlier
clusters (child ids < N + row index) and in which every cluster identifier
except the final root is referenced exactly once as a child, the
quasi-diagonal ordering is a permutation of `{0, …, N - 1}` (`N` being the
member count recorded in the final row): every original index occurs
exactly once. -/
theorem quasiDiag_is_permutation (link : List LinkRow) (hne : link ≠ [])
    (hcb : ∀ j, j < link.length →
      (link.getD j defaultRow).left < (lastRow link).count + j ∧
      (link.getD j defaultRow).right < (lastRow link).count + j)
    (heo : (link.map (fun r => [r.left, r.right])).flatten.Perm
      (List.range ((lastRow link).count + link.length - 1))) :
    (getQuasiDiag link).Perm (List.range (lastRow link).count) :=
  quasiDiag_perm_aux link hne hcb heo

/-- One-merge linkage over 2 leaves that references leaf 0 twice and leaf 1
never — well-formed for the claim's stated condition (each child is an
original index < N). -/
def linkDup : List LinkRow := [⟨0, 0, 0, 2⟩]

/-- C4 counterexample: `linkDup` has N - 1 = 1 merge row whose children are
original indices < N = 2, yet `getQuasiDiag` returns `[0, 0]`, which is not
a permutation of `{0, 1}` — the claim's well-formedness (child id < N + j
alone) does not force a permutation; each id must also be referenced
exactly once. -/
theorem quasiDiag_not_perm :
    linkDup.length = 1 ∧ (lastRow linkDup).count = 2 ∧
    (∀ j, j < linkDup.length →
      (linkDup.getD j defaultRow).left < (lastRow linkDup).count + j ∧
      (linkDup.getD j defaultRow).right < (lastRow linkDup).count + j) ∧
    getQuasiDiag linkDup = [0, 0] ∧
    ¬(getQuasiDiag linkDup).Perm (List.range (lastRow linkDup).count) := by
  decide

/-- Proper one-merge linkage over 2 leaves, used by witnesses. -/
def linkGood : List LinkRow := [⟨0, 1, 0, 2⟩]

/-- C4 witness: the permutation theorem applied to the proper 2-leaf
linkage. -/
theorem quasiDiag_is_permutation_witness :
    (getQuasiDiag linkGood).Perm (List.range (lastRow linkGood).count) :=
  quasiDiag_is_permutation linkGood (List.cons_ne_nil _ _) (by decide)
    (by decide)

/-- C10 (amended): on any nonempty linkage whose rows reference only earlier
clusters, the expansion loop terminates: the budget `N + #rows` of passes
reaches a fixed point (any surplus fuel returns the same list) in which only
original indices < N remain.  The returned list need not have exactly N
entries under these hypotheses alone (see the counterexample); it does once
every cluster id except the root is referenced exactly once as a child. -/
theorem quasiDiag_terminates (link : List LinkRow) (hne : link ≠ [])
    (hcb : ∀ j, j < link.length →
      (link.getD j defaultRow).left < (lastRow link).count + j ∧
      (link.getD j defaultRow).right < (lastRow link).count + j) :
    (∀ e ∈ getQuasiDiag link, e < (lastRow link).count) ∧
    (∀ extra, quasiLoop link (lastRow link).count
      ((lastRow link).count + link.length + extra)
      [(lastRow link).left, (lastRow link).right] = getQuasiDiag link) := by
  have hlen : 1 ≤ link.length := by
    cases link with
    | nil => exact absurd rfl hne
    | cons _ _ => simp
  have hgetd : link.getD (link.length - 1) defaultRow = lastRow link := rfl
  have hinitb : ∀ e ∈ [(lastRow link).left, (lastRow link).right],
      e < (lastRow link).count + link.length := by
    intro e he
    have hlast := hcb (link.length - 1) (by omega)
    rw [hgetd] at hlast
    simp only [List.mem_cons, List.not_mem_nil, or_false,
      List.mem_singleton] at he
    rcases he with rfl | rfl <;> omega
  have hinitmax : listMaxN [(lastRow link).left, (lastRow link).right] <
      (lastRow link).count + ((lastRow link).count + link.length) := by
    apply listMaxN_lt (by omega)
    intro e he
    have := hinitb e he
    omega
  obtain ⟨hsum, hsmall⟩ := quasiLoop_spec hcb
    ((lastRow link).count + link.length)
    [(lastRow link).left, (lastRow link).right] hinitb hinitmax
  refine ⟨hsmall, ?_⟩
  intro extra
  exact quasiLoop_stable hcb ((lastRow link).count + link.length)
    [(lastRow link).left, (lastRow link).right] hinitb hinitmax extra

/-- Two-row linkage over N = 3 original items whose rows only reference
earlier clusters (row 1 references synthetic cluster 3 = row 0 twice). -/
def linkLong : List LinkRow := [⟨0, 0, 0, 2⟩, ⟨3, 3, 0, 3⟩]

/-- C10 counterexample: `linkLong` satisfies the claim's hypothesis (both
children of row j are < N + j), the loop terminates with only original
indices — but the returned list is `[0, 0, 0, 0]`, which has 4 entries, not
N = 3, refuting the claim's final clause that a list of exactly N entries
is returned. -/
theorem quasiDiag_wrong_length :
    linkLong.length = 2 ∧ (lastRow linkLong).count = 3 ∧
    (∀ j, j < linkLong.length →
      (linkLong.getD j defaultRow).left < (lastRow linkLong).count + j ∧
      (linkLong.getD j defaultRow).right < (lastRow linkLong).count + j) ∧
    getQuasiDiag linkLong = [0, 0, 0, 0] ∧
    (getQuasiDiag linkLong).length ≠ (lastRow linkLong).count := by
  decide

/-- C10 witness: the termination theorem applied to the proper 2-leaf
linkage. -/
theorem quasiDiag_terminates_witness :
    (∀ e ∈ getQuasiDiag linkGood, e < (lastRow linkGood).count) ∧
    (∀ extra, quasiLoop linkGood (lastRow linkGood).count
      ((lastRow linkGood).count + linkGood.length + extra)
      [(lastRow linkGood).left, (lastRow linkGood).right] =
        getQuasiDiag linkGood) :=
  quasiDiag_terminates linkGood (List.cons_ne_nil _ _) (by decide)

/-- Label-indexed covariance of a return table whose columns carry the
labels `cols` (the pandas frame `returns.cov()` addressed by column label
through `.loc`): a label is looked up at its column position. -/
def covRS (cols : List ℕ) (rows : List (List ℚ)) : ℕ → ℕ → ℚ :=
  fun l1 l2 =>
    sampleCov (colAt rows (cols.indexOf l1)) (colAt rows (cols.indexOf l2))

/-- Embedding of `get_hrp_allocation(returns)` for a return table with
column labels `cols` and data `rows`.  The correlation/distance/`sch.linkage`
stage runs in scipy on floating-point square roots and is therefore taken
as the input `link` (the modelled clustering of `singleLinkage` below
produces such structures); everything else follows the source:
`cov = returns.cov()`, `sortIx = getQuasiDiag(link)` recovered to labels via
`corr.index[sortIx]`, `getRecBisection(cov, sortIx)`, and finally
`hrp.sort_index()` — the 'Series' is returned as label/weight pairs sorted
by label. -/
def get_hrp_allocation (cols : List ℕ) (rows : List (List ℚ))
    (link : List LinkRow) : List (ℕ × ℚ) :=
  let cov := covRS cols rows
  let sortIx := getQuasiDiag link
  let labels := sortIx.map (fun i => cols.getD i 0)
  let hrp := getRecBisection cov labels
  (List.insertionSort (fun a b => a ≤ b) labels).map (fun l => (l, hrp l))

theorem get_hrp_allocation_fst (cols : List ℕ) (rows : List (List ℚ))
    (link : List LinkRow) :
    (get_hrp_allocation cols rows link).map Prod.fst =
      List.insertionSort (fun a b => a ≤ b)
        ((getQuasiDiag link).map (fun i => cols.getD i 0)) := by
  simp only [get_hrp_allocation, List.map_map]
  exact List.map_id' _

/-- C6 counterexample: a 2-asset return table whose columns carry the labels
`[1, 0]` (in that original order).  The returned weight series is indexed
`[0, 1]` — `hrp.sort_index()` sorts by label — and not in the original
column ordering `[1, 0]`. -/
theorem hrp_alloc_not_original_order :
    (get_hrp_allocation [1, 0] [[0, 0], [2, 1]] linkGood).map Prod.fst ≠
      [1, 0] := by
  rw [get_hrp_allocation_fst]
  decide

/-- C6 (amended): the weight vector handed back by `get_hrp_allocation` is
indexed in ascending label-sorted order (`hrp.sort_index()`), which
coincides with the original column ordering exactly when the input columns
are already sorted; for sorted columns and a well-formed linkage the output
index equals the input column ordering. -/
theorem hrp_alloc_sorted_index (cols : List ℕ) (rows : List (List ℚ))
    (link : List LinkRow) (hsorted : cols.Sorted (fun a b => a ≤ b))
    (hne : link ≠ []) (hn : (lastRow link).count = cols.length)
    (hcb : ∀ j, j < link.length →
      (link.getD j defaultRow).left < (lastRow link).count + j ∧
      (link.getD j defaultRow).right < (lastRow link).count + j)
    (heo : (link.map (fun r => [r.left, r.right])).flatten.Perm
      (List.range ((lastRow link).count + link.length - 1))) :
    (get_hrp_allocation cols rows link).map Prod.fst = cols := by
  rw [get_hrp_allocation_fst]
  have hperm : ((getQuasiDiag link).map (fun i => cols.getD i 0)).Perm cols := by
    have h1 := quasiDiag_perm_aux link hne hcb heo
    have h2 := h1.map (fun i => cols.getD i 0)
    rw [hn] at h2
    rwa [map_getD_range 0 (fun x => x) cols, List.map_id'] at h2
  exact List.eq_of_perm_of_sorted
    ((List.perm_insertionSort _ _).trans hperm)
    (List.sorted_insertionSort _ _) hsorted

/-- C6 witness: with already-sorted column labels `[0, 1]` and the proper
2-leaf linkage, the returned index equals the original ordering. -/
theorem hrp_alloc_sorted_index_witness :
    (get_hrp_allocation [0, 1] [[0, 0], [2, 1]] linkGood).map Prod.fst =
      [0, 1] :=
  hrp_alloc_sorted_index [0, 1] [[0, 0], [2, 1]] linkGood (by decide)
    (List.cons_ne_nil _ _) (by decide) (by decide) (by decide)

/-! Single-linkage hierarchical clustering.  Modelled from the spec:
`scipy.cluster.hierarchy.linkage(dist, 'single')` is an external library
whose source is not part of this repository.  Its contract — agglomerative
clustering in which each step merges the two active clusters at minimal
single-linkage distance, the distance being maintained by the
Lance-Williams minimum update `d(i ∪ j, k) = min(d(i,k), d(j,k))` — is
modelled over an arbitrary rational distance matrix (the pipeline's
`sqrt(0.5·(1 - corr))` matrix in particular; the strictly monotone square
root does not change which pair is minimal).  The theorem below proves the
single-linkage semantics: the maintained pair distance of the merged pair
is the minimum pairwise member distance, minimal among all active pairs. -/

inductive CTree where
  | leaf : ℕ → CTree
  | node : CTree → CTree → CTree
deriving DecidableEq

/-- The original indices contained in a cluster. -/
def CTree.leafList : CTree → List ℕ
  | .leaf i => [i]
  | .node a b => a.leafList ++ b.leafList

/-- All member-to-member distances between two clusters. -/
def leafPairs (d : ℕ → ℕ → ℚ) (t1 t2 : CTree) : List ℚ :=
  (t1.leafList.map (fun i => t2.leafList.map (fun j => d i j))).flatten

/-- Minimum pairwise member distance between two clusters: the
single-linkage inter-cluster distance of the spec. -/
def minPD (d : ℕ → ℕ → ℚ) (t1 t2 : CTree) : ℚ := qmin (leafPairs d t1 t2)

/-- The maintained cluster distance of the Lance-Williams 'single' update:
`d(leaf i, leaf j) = d(i, j)` and `d(i ∪ j, k) = min(d(i,k), d(j,k))` on
either side. -/
def treeDist (d : ℕ → ℕ → ℚ) (t1 t2 : CTree) : ℚ :=
  match t1, t2 with
  | .leaf i, .leaf j => d i j
  | .node a b, t => min (treeDist d a t) (treeDist d b t)
  | .leaf i, .node a b =>
      min (treeDist d (.leaf i) a) (treeDist d (.leaf i) b)
termination_by (sizeOf t1, sizeOf t2)

theorem leafList_ne_nil : ∀ (t : CTree), t.leafList ≠ []
  | .leaf i => by simp [CTree.leafList]
  | .node a b => by
      simp only [CTree.leafList, ne_eq, List.append_eq_nil]
      intro h
      exact leafList_ne_nil a h.1

theorem leafPairs_ne_nil (d : ℕ → ℕ → ℚ) (t1 t2 : CTree) :
    leafPairs d t1 t2 ≠ [] := by
  cases h : t1.leafList with
  | nil => exact absurd h (leafList_ne_nil t1)
  | cons i rest =>
      simp only [leafPairs, h, List.map_cons, ne_eq, List.flatten_eq_nil_iff]
      intro hall
      have hblock := hall (t2.leafList.map (d i)) (by simp)
      rw [List.map_eq_nil_iff] at hblock
      exact leafList_ne_nil t2 hblock

theorem qmin_append : ∀ (xs ys : List ℚ), xs ≠ [] → ys ≠ [] →
    qmin (xs ++ ys) = min (qmin xs) (qmin ys)
  | [], _, hx, _ => absurd rfl hx
  | [x], ys, _, hy => by
      cases ys with
      | nil => exact absurd rfl hy
      | cons y t =>
          show qmin (x :: y :: t) = min (qmin [x]) (qmin (y :: t))
          rw [qmin_cons]
          rfl
  | x :: x2 :: xs, ys, _, hy => by
      rw [List.cons_append, List.cons_append, qmin_cons x x2 (xs ++ ys),
        ← List.cons_append, qmin_append (x2 :: xs) ys (by simp) hy,
        ← min_assoc, ← qmin_cons]

theorem leafPairs_node_left (d : ℕ → ℕ → ℚ) (a b t : CTree) :
    leafPairs d (.node a b) t = leafPairs d a t ++ leafPairs d b t := by
  simp [leafPairs, CTree.leafList]

theorem leafPairs_leaf (d : ℕ → ℕ → ℚ) (i : ℕ) (t : CTree) :
    leafPairs d (.leaf i) t = t.leafList.map (d i) := by
  simp [leafPairs, CTree.leafList]

theorem leafPairs_leaf_node (d : ℕ → ℕ → ℚ) (i : ℕ) (a b : CTree) :
    leafPairs d (.leaf i) (.node a b) =
      leafPairs d (.leaf i) a ++ leafPairs d (.leaf i) b := by
  rw [leafPairs_leaf, leafPairs_leaf, leafPairs_leaf]
  simp [CTree.leafList]

/-- The Lance-Williams maintained distance is exactly the minimum pairwise
member distance: the invariant that makes the generic nearest-pair
agglomeration implement single linkage. -/
theorem treeDist_eq_minPD (d : ℕ → ℕ → ℚ) : ∀ (t1 t2 : CTree),
    treeDist d t1 t2 = minPD d t1 t2
  | .leaf i, .leaf j => by
      simp [treeDist, minPD, leafPairs, CTree.leafList, qmin]
  | .node a b, t => by
      simp only [treeDist]
      rw [treeDist_eq_minPD d a t, treeDist_eq_minPD d b t]
      unfold minPD
      rw [leafPairs_node_left,
        qmin_append _ _ (leafPairs_ne_nil d a t) (leafPairs_ne_nil d b t)]
  | .leaf i, .node a b => by
      simp only [treeDist]
      rw [treeDist_eq_minPD d (.leaf i) a, treeDist_eq_minPD d (.leaf i) b]
      unfold minPD
      rw [leafPairs_leaf_node,
        qmin_append _ _ (leafPairs_ne_nil d _ a) (leafPairs_ne_nil d _ b)]
termination_by t1 t2 => (sizeOf t1, sizeOf t2)

/-- All index pairs `(i, j)` with `i < j < n`. -/
def pairsIdx (n : ℕ) : List (ℕ × ℕ) :=
  ((List.range n).map (fun j => (List.range j).map (fun i => (i, j)))).flatten

theorem mem_pairsIdx {p : ℕ × ℕ} {n : ℕ} :
    p ∈ pairsIdx n ↔ p.1 < p.2 ∧ p.2 < n := by
  obtain ⟨i, j⟩ := p
  simp only [pairsIdx, List.mem_flatten, List.mem_map]
  constructor
  · rintro ⟨l, ⟨j', hj', rfl⟩, hmem⟩
    rw [List.mem_range] at hj'
    obtain ⟨i', hi', heq⟩ := List.mem_map.mp hmem
    rw [List.mem_range] at hi'
    cases heq
    exact ⟨hi', hj'⟩
  · rintro ⟨h1, h2⟩
    exact ⟨(List.range j).map (fun i => (i, j)),
      ⟨j, List.mem_range.mpr h2, rfl⟩,
      List.mem_map.mpr ⟨i, List.mem_range.mpr h1, rfl⟩⟩

/-- First-occurrence argmin fold over candidate pairs (strict improvement
keeps the earlier minimizer). -/
def argminPairAux (f : ℕ × ℕ → ℚ) : List (ℕ × ℕ) → ℕ × ℕ → ℕ × ℕ
  | [], best => best
  | p :: rest, best => argminPairAux f rest (if f p < f best then p else best)

theorem argminPairAux_spec (f : ℕ × ℕ → ℚ) : ∀ (l : List (ℕ × ℕ)) (b : ℕ × ℕ),
    argminPairAux f l b ∈ b :: l ∧ ∀ q ∈ b :: l, f (argminPairAux f l b) ≤ f q
  | [], b => by
      refine ⟨by simp [argminPairAux], ?_⟩
      intro q hq
      simp only [List.mem_singleton] at hq
      subst hq
      exact le_refl _
  | p :: rest, b => by
      obtain ⟨hmem, hle⟩ := argminPairAux_spec f rest (if f p < f b then p else b)
      have hboth : f (if f p < f b then p else b) ≤ f p ∧
          f (if f p < f b then p else b) ≤ f b := by
        by_cases hfb : f p < f b
        · rw [if_pos hfb]
          exact ⟨le_refl _, le_of_lt hfb⟩
        · rw [if_neg hfb]
          exact ⟨le_of_not_lt hfb, le_refl _⟩
      constructor
      · show argminPairAux f rest (if f p < f b then p else b) ∈ b :: p :: rest
        rcases List.mem_cons.mp hmem with h | h
        · rw [h]
          by_cases hfb : f p < f b
          · simp [if_pos hfb]
          · simp [if_neg hfb]
        · simp [h]
      · intro q hq
        have hbest := hle (if f p < f b then p else b) (List.mem_cons_self _ _)
        rcases List.mem_cons.mp hq with rfl | hq2
        · exact le_trans hbest hboth.2
        · rcases List.mem_cons.mp hq2 with rfl | hq3
          · exact le_trans hbest hboth.1
          · exact hle q (List.mem_cons_of_mem _ hq3)

/-- The pair of active-cluster indices chosen for the next merge: the
first-occurrence argmin of the maintained distance over all `i < j`. -/
def bestPair (d : ℕ → ℕ → ℚ) (acts : List CTree) : ℕ × ℕ :=
  match pairsIdx acts.length with
  | [] => (0, 0)
  | p :: rest =>
      argminPairAux
        (fun q => treeDist d (acts.getD q.1 (.leaf 0)) (acts.getD q.2 (.leaf 0)))
        rest p

theorem bestPair_spec (d : ℕ → ℕ → ℚ) (acts : List CTree)
    (h2 : 2 ≤ acts.length) :
    (bestPair d acts).1 < (bestPair d acts).2 ∧
    (bestPair d acts).2 < acts.length ∧
    ∀ q ∈ pairsIdx acts.length,
      treeDist d (acts.getD (bestPair d acts).1 (.leaf 0))
        (acts.getD (bestPair d acts).2 (.leaf 0)) ≤
      treeDist d (acts.getD q.1 (.leaf 0)) (acts.getD q.2 (.leaf 0)) := by
  have h01 : ((0, 1) : ℕ × ℕ) ∈ pairsIdx acts.length :=
    mem_pairsIdx.mpr ⟨by omega, by omega⟩
  cases hp : pairsIdx acts.length with
  | nil =>
      rw [hp] at h01
      cases h01
  | cons p rest =>
      obtain ⟨hmem, hle⟩ := argminPairAux_spec
        (fun q => treeDist d (acts.getD q.1 (.leaf 0)) (acts.getD q.2 (.leaf 0)))
        rest p
      have hbp : bestPair d acts = argminPairAux
          (fun q => treeDist d (acts.getD q.1 (.leaf 0))
            (acts.getD q.2 (.leaf 0))) rest p := by
        simp only [bestPair, hp]
      rw [hbp]
      have hmem' : argminPairAux
          (fun q => treeDist d (acts.getD q.1 (.leaf 0))
            (acts.getD q.2 (.leaf 0))) rest p ∈ pairsIdx acts.length := by
        rw [hp]
        exact hmem
      obtain ⟨hlt1, hlt2⟩ := mem_pairsIdx.mp hmem'
      refine ⟨hlt1, hlt2, ?_⟩
      intro q hq
      exact hle q hq

/-- The merge trace of the modelled clustering: each event records the
active cluster list before the merge and the two indices merged; the two
chosen clusters are removed and their join appended. -/
def slTrace (d : ℕ → ℕ → ℚ) : ℕ → List CTree → List (List CTree × ℕ × ℕ)
  | 0, _ => []
  | fuel + 1, acts =>
      if acts.length < 2 then []
      else
        (acts, (bestPair d acts).1, (bestPair d acts).2) ::
          slTrace d fuel
            (((acts.eraseIdx (bestPair d acts).2).eraseIdx
                (bestPair d acts).1) ++
              [.node (acts.getD (bestPair d acts).1 (.leaf 0))
                (acts.getD (bestPair d acts).2 (.leaf 0))])

/-- Modelled from the spec: `sch.linkage(dist, 'single')` on `n` items —
start from the singleton clusters and merge the closest pair until one
cluster remains (the fuel `n` covers the `n - 1` merges). -/
def singleLinkage (d : ℕ → ℕ → ℚ) (n : ℕ) : List (List CTree × ℕ × ℕ) :=
  slTrace d n ((List.range n).map CTree.leaf)

theorem slTrace_min (d : ℕ → ℕ → ℚ) : ∀ (fuel : ℕ) (acts : List CTree),
    ∀ ev ∈ slTrace d fuel acts,
      ev.2.1 < ev.2.2 ∧ ev.2.2 < ev.1.length ∧
      ∀ k l, k < l → l < ev.1.length →
        minPD d (ev.1.getD ev.2.1 (.leaf 0)) (ev.1.getD ev.2.2 (.leaf 0)) ≤
        minPD d (ev.1.getD k (.leaf 0)) (ev.1.getD l (.leaf 0)) := by
  intro fuel
  induction fuel with
  | zero =>
      intro acts ev hev
      cases hev
  | succ fuel ih =>
      intro acts ev hev
      by_cases hlt : acts.length < 2
      · simp only [slTrace, if_pos hlt] at hev
        cases hev
      · simp only [slTrace, if_neg hlt] at hev
        rcases List.mem_cons.mp hev with rfl | htl
        · obtain ⟨h1, h2, h3⟩ := bestPair_spec d acts (by omega)
          refine ⟨h1, h2, ?_⟩
          intro k l hkl hl
          have hq := h3 (k, l) (mem_pairsIdx.mpr ⟨hkl, hl⟩)
          rw [treeDist_eq_minPD, treeDist_eq_minPD] at hq
          exact hq
        · exact ih _ ev htl

/-- C3: every merge event of the modelled single-linkage clustering joins
two currently active clusters whose minimum pairwise member distance under
the input distance matrix is at most that of every other active pair —
single-linkage semantics over the distance matrix handed to the clustering
stage. -/
theorem singleLinkage_merges_closest (d : ℕ → ℕ → ℚ) (n : ℕ) :
    ∀ ev ∈ singleLinkage d n,
      ev.2.1 < ev.2.2 ∧ ev.2.2 < ev.1.length ∧
      ∀ k l, k < l → l < ev.1.length →
        minPD d (ev.1.getD ev.2.1 (.leaf 0)) (ev.1.getD ev.2.2 (.leaf 0)) ≤
        minPD d (ev.1.getD k (.leaf 0)) (ev.1.getD l (.leaf 0)) :=
  fun ev hev => slTrace_min d n _ ev hev

/-- Constant-zero distance matrix used by the clustering witness. -/
def dZero : ℕ → ℕ → ℚ := fun _ _ => 0

/-- C3 witness: the single-linkage theorem applied to the first (and only)
merge of a 2-item clustering. -/
theorem singleLinkage_merges_closest_witness :
    (([CTree.leaf 0, CTree.leaf 1], 0, 1) ∈ singleLinkage dZero 2) ∧
    ((0 : ℕ) < 1 ∧ 1 < ([CTree.leaf 0, CTree.leaf 1] : List CTree).length ∧
      ∀ k l, k < l → l < ([CTree.leaf 0, CTree.leaf 1] : List CTree).length →
        minPD dZero
          (([CTree.leaf 0, CTree.leaf 1] : List CTree).getD 0 (.leaf 0))
          (([CTree.leaf 0, CTree.leaf 1] : List CTree).getD 1 (.leaf 0)) ≤
        minPD dZero
          (([CTree.leaf 0, CTree.leaf 1] : List CTree).getD k (.leaf 0))
          (([CTree.leaf 0, CTree.leaf 1] : List CTree).getD l (.leaf 0))) :=
  ⟨by decide, singleLinkage_merges_closest dZero 2
    ([CTree.leaf 0, CTree.leaf 1], 0, 1) (by decide)⟩

end Portfolio
